import Mathlib

namespace XmlSearch

/-!
# Verification of the XML search pipeline

A shallow embedding, in Lean 4, of the core search pipeline of the
Search_XML_File application: the FTP date-directory catalog
(`src/core/ftp_manager.py`), the connection pool, the streaming text
search engine (`src/core/search_engine.py`), and the search coordinator
(`src/core/search_worker.py`).  Python functions are translated into
executable Lean definitions; stateful components become explicit state
machines; Python exceptions become `Except`/`Option` values.  Theorems
about the embedding settle the documented behavioural properties of the
pipeline.
-/

set_option maxRecDepth 10000

/-! ## Generic list and string helpers (models of Python primitives) -/

/-- Characters treated as whitespace by Python `str.split()` with no
arguments (ASCII range; FTP LIST lines only contain ASCII separators). -/
def isPyWS (c : Char) : Bool :=
  c = ' ' || c = '\t' || c = '\n' || c = '\r' || c = Char.ofNat 11 || c = Char.ofNat 12

/-- Helper for `pySplit`: walk the characters, accumulating the current
token in reverse; whitespace ends a token, and empty tokens are dropped. -/
def pySplitAux : List Char → List Char → List String
  | [], cur => if cur.isEmpty then [] else [⟨cur.reverse⟩]
  | c :: rest, cur =>
    if isPyWS c then
      if cur.isEmpty then pySplitAux rest [] else ⟨cur.reverse⟩ :: pySplitAux rest []
    else pySplitAux rest (c :: cur)

/-- Python `str.split()` with no arguments: the maximal runs of
non-whitespace characters, in order (empty pieces dropped). -/
def pySplit (s : String) : List String := pySplitAux s.data []

/-- Python `list.index(x)`: index of the first occurrence (callers in the
source only use it when `x` is present). -/
def listIdx (a : String) : List String → Nat
  | [] => 0
  | b :: l => if b = a then 0 else listIdx a l + 1

/-- `listStarts pat l` is true when `pat` is an initial segment of `l`. -/
def listStarts {α : Type} [DecidableEq α] : List α → List α → Bool
  | [], _ => true
  | _ :: _, [] => false
  | a :: ps, b :: l => a = b && listStarts ps l

/-- `listOccurs pat l` is true when `pat` occurs contiguously inside `l`
(model of Python's `in` on strings). -/
def listOccurs {α : Type} [DecidableEq α] (pat : List α) : List α → Bool
  | [] => pat.isEmpty
  | b :: l => listStarts pat (b :: l) || listOccurs pat l

/-- Index of the first contiguous occurrence of `pat` in `l`
(model of Python's `str.find`, with absence as `none`). -/
def firstOcc {α : Type} [DecidableEq α] (pat : List α) : List α → Option Nat
  | [] => if pat.isEmpty then some 0 else none
  | b :: l =>
    if listStarts pat (b :: l) then some 0
    else (firstOcc pat l).map (· + 1)

/-- Python `needle in haystack` on strings. -/
def strContains (haystack needle : String) : Bool :=
  listOccurs needle.data haystack.data

/-- `pat` occurs contiguously inside `l`, as a proposition. -/
def OccursL {α : Type} (pat l : List α) : Prop :=
  ∃ x y, l = x ++ pat ++ y

/-! ## SearchResult and remote paths (`search_engine.py`, `ftp_manager.py`) -/

/-- The directory-layout settings of `config/settings.py` that the remote
path construction may consult (`SOURCE_DIRECTORY`, `SEND_FILE_DIRECTORY`). -/
structure Settings where
  source_directory : String
  send_file_directory : String
  deriving DecidableEq

/-- The values shipped in `config/settings.py`. -/
def defaultSettings : Settings :=
  { source_directory := "SAMSUNG", send_file_directory := "Send File" }

/-- `SearchResult` of `search_engine.py`: `__init__` stores the five
arguments and derives `file_path` from the f-string
`/{date_dir}/Send File/{filename}`. -/
structure SearchResult where
  date_dir : String
  filename : String
  match_type : String
  match_content : String
  line_number : Nat
  file_path : String
  deriving DecidableEq

/-- Model of `SearchResult.__init__`.  The settings argument records the
configuration visible to the module; the constructor body never reads it,
the `Send File` segment is a literal in the f-string. -/
def mkSearchResult (cfg : Settings) (date_dir filename match_type match_content : String)
    (line_number : Nat) : SearchResult :=
  { date_dir := date_dir
    filename := filename
    match_type := match_type
    match_content := match_content
    line_number := line_number
    file_path := "/" ++ date_dir ++ "/Send File/" ++ filename }

/-- The remote directory `FTPManager.get_file_stream` navigates to:
`f"/{source_dir}/{date_dir}/{send_file_dir}"`. -/
def getFileStreamDir (cfg : Settings) (date_dir : String) : String :=
  "/" ++ cfg.source_directory ++ "/" ++ date_dir ++ "/" ++ cfg.send_file_directory

/-- Full remote location of the file that `get_file_stream` actually
opens (directory plus filename). -/
def getFileStreamPath (cfg : Settings) (date_dir filename : String) : String :=
  getFileStreamDir cfg date_dir ++ "/" ++ filename

/-- Number of `/` separators in a string. -/
def slashCount (s : String) : Nat := s.data.count '/'

/-- A string free of path separators (any real single path segment). -/
def noSlash (s : String) : Prop := slashCount s = 0

instance (s : String) : Decidable (noSlash s) := by
  unfold noSlash; infer_instance

/-! ## Date-directory catalog (`FTPManager.list_date_directories`) -/

/-- Directory-name extraction from one FTP `LIST` line, as in
`list_date_directories`: split the line on whitespace; a Unix line
(`parts[0]` starts with `d`) names its last part; a Windows line (at least
three parts, one equal to `<DIR>`) names the part after `<DIR>` when there is
one; otherwise any line with `<DIR>` inside some part names its last part;
every other line carries no directory. -/
def lineDirname (line : String) : Option String :=
  let parts := pySplit line
  match hp : parts with
  | [] => none
  | p0 :: _ =>
    if listStarts ['d'] p0.data then parts.getLast (by simp [hp])
    else if parts.length ≥ 3 ∧ "<DIR>" ∈ parts then
      (parts.drop (listIdx "<DIR>" parts + 1)).head?
    else if parts.any (fun p => strContains p "<DIR>") then
      parts.getLast (by simp [hp])
    else none

/-- Numeric value of a digit string. -/
def natOfDigits (l : List Char) : Nat :=
  l.foldl (fun a c => a * 10 + (c.toNat - 48)) 0

/-- Python `str.isdigit` on ASCII content. -/
def allDigits (s : String) : Bool := s.data.all (·.isDigit)

def isLeap (y : Nat) : Bool := y % 4 = 0 && (y % 100 ≠ 0 || y % 400 = 0)

def daysInMonth (y m : Nat) : Nat :=
  if m = 2 then (if isLeap y then 29 else 28)
  else if m = 4 ∨ m = 6 ∨ m = 9 ∨ m = 11 then 30
  else 31

/-- `datetime.strptime(s, "%Y%m%d")` on an 8-digit string: year from the
first four digits, month from the next two, day from the last two; succeeds
exactly on valid proleptic-Gregorian calendar dates with year ≥ 1. -/
def parseYmd (s : String) : Option (Nat × Nat × Nat) :=
  let y := natOfDigits (s.data.take 4)
  let m := natOfDigits ((s.data.drop 4).take 2)
  let d := natOfDigits (s.data.drop 6)
  if 1 ≤ y ∧ 1 ≤ m ∧ m ≤ 12 ∧ 1 ≤ d ∧ d ≤ daysInMonth y m then some (y, m, d)
  else none

/-- Microseconds in `datetime.max.time()` (23:59:59.999999). -/
def maxTod : Nat := 86399999999

/-- A Python `datetime`, reduced to what the comparisons in
`list_date_directories` use: the date encoded as `year*10000 + month*100 +
day` (which orders dates correctly since month and day stay below 100) and
the time of day in microseconds. -/
structure PyDateTime where
  dateKey : Nat
  tod : Nat
  deriving DecidableEq

/-- `datetime` comparison: by date, then by time of day. -/
def dtLE (a b : PyDateTime) : Prop :=
  a.dateKey < b.dateKey ∨ (a.dateKey = b.dateKey ∧ a.tod ≤ b.tod)

instance (a b : PyDateTime) : Decidable (dtLE a b) := by
  unfold dtLE; infer_instance

/-- A date-range bound as the caller supplies it: either a `datetime.date`
or a full `datetime.datetime`.  (`list_date_directories` distinguishes them
with `hasattr(x, 'date')`, true exactly for `datetime` objects.) -/
inductive DateInput where
  | date (dateKey : Nat)
  | datetime (dt : PyDateTime)
  deriving DecidableEq

/-- Start bound: a `datetime` is used as is; a `date` is combined with
`datetime.min.time()` (midnight). -/
def startBound : DateInput → PyDateTime
  | .datetime dt => dt
  | .date k => ⟨k, 0⟩

/-- End bound: a `datetime` is used as is; a `date` is combined with
`datetime.max.time()` (end of day). -/
def endBound : DateInput → PyDateTime
  | .datetime dt => dt
  | .date k => ⟨k, maxTod⟩

/-- The datetime `strptime` builds for a date directory (midnight of that
day). -/
def dirDateKey (y m d : Nat) : Nat := y * 10000 + m * 100 + d

/-- One line of the `LIST` reply passed through the filter body of
`list_date_directories`: the accepted directory name, if any. -/
def lineAccepted (sb eb : PyDateTime) (line : String) : Option String :=
  match lineDirname line with
  | none => none
  | some dirname =>
    if dirname.length = 8 ∧ allDigits dirname then
      match parseYmd dirname with
      | none => none
      | some (y, m, d) =>
        if dtLE sb ⟨dirDateKey y m d, 0⟩ ∧ dtLE ⟨dirDateKey y m d, 0⟩ eb
        then some dirname else none
    else none

/-- `FTPManager.list_date_directories`, given the raw `LIST` reply lines:
normalise the bounds, filter the lines, and return the accepted names
sorted ascending (`sorted(date_dirs)`). -/
def list_date_directories (startD endD : DateInput) (lines : List String) :
    List String :=
  List.insertionSort (· ≤ ·)
    (lines.filterMap (lineAccepted (startBound startD) (endBound endD)))

/-! ## Connection pool (`FTPConnectionPool` in `ftp_manager.py`) -/

/-- An `FTPConnection`: identity plus the `is_connected` flag, which is all
the pool logic inspects. -/
structure Conn where
  id : Nat
  connected : Bool
  deriving DecidableEq

/-- Pool state: capacity (`pool_size`), the idle FIFO queue (`self.pool`),
the `active_connections` counter, and — as bookkeeping needed to state the
pool invariant — the sessions currently checked out to callers. -/
structure PoolState where
  pool_size : Nat
  idle : List Conn
  active_connections : Nat
  checkedOut : List Conn
  deriving DecidableEq

/-- The tail of `get_connection`: create a new connection if the pool is not
full.  `connectOK` is the outcome of `FTPConnection.connect`, `fresh` the
identity of the new session. -/
def createNew (st : PoolState) (connectOK : Bool) (fresh : Nat) :
    PoolState × Option Conn :=
  if st.active_connections < st.pool_size then
    if connectOK then
      ({ st with
          active_connections := st.active_connections + 1
          checkedOut := ⟨fresh, true⟩ :: st.checkedOut }, some ⟨fresh, true⟩)
    else (st, none)
  else (st, none)

/-- `FTPConnectionPool.get_connection`: pop an idle session and health-check
it (`testOK` is the `NOOP` outcome); a healthy session is returned, a dead
one is discarded (without touching `active_connections`) and a replacement
is attempted via `createNew`; an empty queue goes straight to `createNew`. -/
def get_connection (st : PoolState) (testOK connectOK : Bool) (fresh : Nat) :
    PoolState × Option Conn :=
  match st.idle with
  | c :: rest =>
    if testOK then
      ({ st with idle := rest, checkedOut := c :: st.checkedOut }, some c)
    else createNew { st with idle := rest } connectOK fresh
  | [] => createNew st connectOK fresh

/-- `FTPConnectionPool.return_connection`: only a session whose
`is_connected` flag is still true is pushed back (`put_nowait`); if the
queue is full (`queue.Full`, possible only when `pool_size > 0` and the
queue already holds `pool_size` items) the session is discarded and
`active_connections` is decremented.  An unhealthy session falls through
the `if` entirely: it is dropped with *no* counter update. -/
def return_connection (st : PoolState) (c : Conn) (healthNow : Bool) : PoolState :=
  let st1 : PoolState := { st with checkedOut := st.checkedOut.erase c }
  if healthNow then
    if st1.pool_size = 0 ∨ st1.idle.length < st1.pool_size then
      { st1 with idle := st1.idle ++ [⟨c.id, true⟩] }
    else { st1 with active_connections := st1.active_connections - 1 }
  else st1

/-- Pool states reachable from a fresh pool through `get_connection` and
`return_connection` (a caller only returns sessions it actually holds; its
`healthNow` flag is the session's health at return time). -/
inductive Reach : PoolState → Prop where
  | init (n : Nat) : Reach ⟨n, [], 0, []⟩
  | get (st : PoolState) (testOK connectOK : Bool) (fresh : Nat) :
      Reach st → Reach (get_connection st testOK connectOK fresh).1
  | ret (st : PoolState) (c : Conn) (healthNow : Bool) :
      Reach st → c ∈ st.checkedOut → Reach (return_connection st c healthNow)

/-! ## Per-file worker with retry (`SearchWorker._search_file`) -/

/-- What one attempt of `_search_file` encounters, for a result type `ρ`:
the stream acquisition can fail (`get_file_stream` returns `(None, None)`),
a connection-class exception can be raised (`ConnectionError`, `OSError`,
`TimeoutError`, `ConnectionResetError`), some other exception whose text
mentions `10060`/`timeout`/`connection` can be raised, a non-recoverable
exception can be raised, or the streaming search can complete with an
optional match. -/
inductive AttemptOutcome (ρ : Type) where
  | noStream
  | connError
  | connLikeError
  | otherError
  | success (r : Option ρ)
  deriving DecidableEq

/-- A connection-class attempt failure: the three outcomes `_search_file`
retries on. -/
def isConnFailure {ρ : Type} (o : AttemptOutcome ρ) : Prop :=
  o = .noStream ∨ o = .connError ∨ o = .connLikeError

instance {ρ : Type} [DecidableEq ρ] (o : AttemptOutcome ρ) :
    Decidable (isConnFailure o) := by
  unfold isConnFailure; infer_instance

/-- `max_retries = 3` in `_search_file`. -/
def max_retries : Nat := 3

/-- `retry_delay = [1, 2, 3]` in `_search_file` (seconds). -/
def retry_delay : List Nat := [1, 2, 3]

/-- Everything observable about one `_search_file` call: its return value,
how many attempts ran, the sleeps performed between attempts, how many
forced `ftp_manager.reconnect()` pool refreshes it did, and the progress
error list as the call leaves it. -/
structure SFRun (ρ : Type) where
  result : Option ρ
  attempts : Nat
  sleeps : List Nat
  reconnects : Nat
  errors_out : List String
  deriving DecidableEq

/-- The `for attempt in range(max_retries)` body of `_search_file`.  A
success or a non-recoverable error returns at once; a connection-class
failure sleeps `retry_delay[attempt]` and forces a pool refresh before the
next attempt, except on the last attempt, which gives up with `None`.
`_search_file` never calls `progress.add_error`, so the error list rides
along untouched. -/
def searchFileLoop {ρ : Type} (oracle : Nat → AttemptOutcome ρ) :
    List Nat → SFRun ρ → SFRun ρ
  | [], acc => acc
  | attempt :: rest, acc =>
    let acc1 : SFRun ρ := { acc with attempts := acc.attempts + 1 }
    match oracle attempt with
    | .success r => { acc1 with result := r }
    | .otherError => acc1
    | _ =>
      if attempt < max_retries - 1 then
        searchFileLoop oracle rest
          { acc1 with
              sleeps := acc1.sleeps ++ [retry_delay.getD attempt 0]
              reconnects := acc1.reconnects + 1 }
      else acc1

/-- `SearchWorker._search_file`: the stop-event guard at entry, then the
retry loop over attempts `0, 1, 2`. -/
def search_file {ρ : Type} (stopSet : Bool) (oracle : Nat → AttemptOutcome ρ)
    (errs0 : List String) : SFRun ρ :=
  if stopSet then ⟨none, 0, [], 0, errs0⟩
  else searchFileLoop oracle [0, 1, 2] ⟨none, 0, [], 0, errs0⟩

/-! ## Text search engine (`TextSearchEngine` in `search_engine.py`)

Bytes are modelled as `Nat` (values < 256 in any real stream), decoded text
as lists of Unicode code points. -/

/-- `str.lower()` restricted to the ASCII letters (code points outside
`A`–`Z` are left unchanged; the engine's keywords and the counterexamples
below are ASCII-cased). -/
def lowerChar (c : Nat) : Nat := if 65 ≤ c ∧ c ≤ 90 then c + 32 else c

def lowerText (t : List Nat) : List Nat := t.map lowerChar

/-- A UTF-8 continuation byte (`0x80`–`0xBF`). -/
def contB (b : Nat) : Bool := 128 ≤ b && b < 192

/-- Valid range of the first continuation byte for a given lead byte, as
CPython's UTF-8 decoder checks it (`E0` excludes overlong forms, `ED`
excludes surrogates, `F0` excludes overlong forms, `F4` caps at
`U+10FFFF`). -/
def cont1OK (lead c1 : Nat) : Bool :=
  if lead = 224 then 160 ≤ c1 && c1 < 192
  else if lead = 237 then 128 ≤ c1 && c1 < 160
  else if lead = 240 then 144 ≤ c1 && c1 < 192
  else if lead = 244 then 128 ≤ c1 && c1 < 144
  else contB c1

/-- `bytes.decode('utf-8', errors='ignore')`: decode, skipping each maximal
ill-formed subsequence (CPython semantics: an invalid or overlong lead byte
is skipped alone; a lead byte whose continuation bytes stop matching is
skipped together with the continuation bytes consumed so far; a truncated
sequence at end of input is skipped entirely). -/
def decodeU : List Nat → List Nat
  | [] => []
  | [b] => if b < 128 then [b] else []
  | b :: c1 :: r1 =>
    if b < 128 then b :: decodeU (c1 :: r1)
    else if b < 194 then decodeU (c1 :: r1)
    else if b < 224 then
      if contB c1 then ((b - 192) * 64 + (c1 - 128)) :: decodeU r1
      else decodeU (c1 :: r1)
    else if b < 240 then
      if cont1OK b c1 then
        match r1 with
        | [] => []
        | c2 :: r2 =>
          if contB c2 then
            ((b - 224) * 4096 + (c1 - 128) * 64 + (c2 - 128)) :: decodeU r2
          else decodeU (c2 :: r2)
      else decodeU (c1 :: r1)
    else if b < 245 then
      if cont1OK b c1 then
        match r1 with
        | [] => []
        | c2 :: r2 =>
          if contB c2 then
            match r2 with
            | [] => []
            | c3 :: r3 =>
              if contB c3 then
                ((b - 240) * 262144 + (c1 - 128) * 4096 + (c2 - 128) * 64
                    + (c3 - 128)) :: decodeU r3
              else decodeU (c3 :: r3)
          else decodeU (c2 :: r2)
      else decodeU (c1 :: r1)
    else decodeU (c1 :: r1)

/-- A Unicode scalar value (what a Python `str` character of interest
holds and what `decodeU` emits). -/
def ValidScalar (c : Nat) : Prop := c < 1114112 ∧ ¬(55296 ≤ c ∧ c < 57344)

instance (c : Nat) : Decidable (ValidScalar c) := by
  unfold ValidScalar; infer_instance

/-- UTF-8 encoding of one scalar. -/
def encodeChar (c : Nat) : List Nat :=
  if c < 128 then [c]
  else if c < 2048 then [192 + c / 64, 128 + c % 64]
  else if c < 65536 then [224 + c / 4096, 128 + c / 64 % 64, 128 + c % 64]
  else [240 + c / 262144, 128 + c / 4096 % 64, 128 + c / 64 % 64, 128 + c % 64]

/-- UTF-8 encoding of a code-point sequence. -/
def encodeAll : List Nat → List Nat
  | [] => []
  | c :: t => encodeChar c ++ encodeAll t

/-- Whitespace for Python `str.strip()` (ASCII range). -/
def isWSCode (c : Nat) : Bool :=
  c = 32 || c = 9 || c = 10 || c = 13 || c = 11 || c = 12

/-- Python `str.strip()`. -/
def pyStrip (t : List Nat) : List Nat :=
  ((t.dropWhile isWSCode).reverse.dropWhile isWSCode).reverse

/-- Newlines in a stretch of text (`.count('\n')` / `.count(b'\n')`). -/
def countNl (t : List Nat) : Nat := t.count 10

/-- The result object built by `_search_in_chunk` (a `SearchResult` whose
`match_content` — the ±50-character context window — is kept as the list of
its code points). -/
structure MatchResultB where
  date_dir : String
  filename : String
  match_type : String
  context : List Nat
  line_number : Nat
  deriving DecidableEq

/-- The keyword loop of the basic-search fallback in `_search_in_chunk`:
try each keyword in declaration order, case-folding when requested, and
return the first keyword that occurs together with its first occurrence
index in the (possibly lowered) text. -/
def searchKeywords (caseS : Bool) (searchText : List Nat) :
    List (List Nat) → Option (List Nat × Nat)
  | [] => none
  | kw :: rest =>
    let sk := if caseS then kw else lowerText kw
    match firstOcc sk searchText with
    | some idx => some (sk, idx)
    | none => searchKeywords caseS searchText rest

/-- `TextSearchEngine._search_in_chunk` (basic-search path): decode the
chunk as UTF-8 with errors ignored, case-fold unless case-sensitive, and
return the first keyword match with its ±50-character stripped context and
1-based line number `lineNo + newlines before the match offset`. -/
def searchChunk (kws : List (List Nat)) (caseS : Bool) (dd fn : String)
    (chunk : List Nat) (lineNo : Nat) : Option MatchResultB :=
  let text := decodeU chunk
  let searchText := if caseS then text else lowerText text
  match searchKeywords caseS searchText kws with
  | none => none
  | some (sk, idx) =>
    some { date_dir := dd
           filename := fn
           match_type := "Text Match"
           context := pyStrip ((text.take (idx + sk.length + 50)).drop (idx - 50))
           line_number := lineNo + countNl (searchText.take idx) }

/-- The mutable state of `search_in_stream`: the carry-over buffer, the
running line number, and the first result found. -/
structure StreamState where
  buffer : List Nat
  line : Nat
  found : Option MatchResultB
  deriving DecidableEq

/-- The `while len(buffer) >= chunk_size ...` loop of `search_in_stream`:
take a `cs`-byte window, trim the buffer to keep the last `ov` bytes
(`buffer[chunk_size - CHUNK_OVERLAP_SIZE:]`), search the window, latch the
first result (breaking without the line-number update when early
termination is on), and otherwise add the window's newlines to the line
counter.  Runs on fuel; callers pass at least `buffer.length + 1`, which
suffices whenever `ov < cs` (when `ov ≥ cs` the Python loop would not
terminate). -/
def chunkLoop (kws : List (List Nat)) (caseS : Bool) (dd fn : String)
    (cs ov : Nat) (ET : Bool) : Nat → StreamState → StreamState
  | 0, st => st
  | Nat.succ fuel, st =>
    if cs ≤ st.buffer.length ∧ (st.found = none ∨ ET = false) then
      let chunk := st.buffer.take cs
      let rest := st.buffer.drop (cs - ov)
      match searchChunk kws caseS dd fn chunk st.line with
      | some r =>
        if st.found = none then
          if ET then { buffer := rest, line := st.line, found := some r }
          else chunkLoop kws caseS dd fn cs ov ET fuel
            { buffer := rest, line := st.line + countNl chunk, found := some r }
        else chunkLoop kws caseS dd fn cs ov ET fuel
          { buffer := rest, line := st.line + countNl chunk, found := st.found }
      | none => chunkLoop kws caseS dd fn cs ov ET fuel
          { buffer := rest, line := st.line + countNl chunk, found := st.found }
    else st

/-- The `chunk_callback` of `search_in_stream`: skip entirely when a result
is already latched under early termination, otherwise append the delivered
bytes to the buffer and drain complete windows. -/
def feedChunk (kws : List (List Nat)) (caseS : Bool) (dd fn : String)
    (cs ov : Nat) (ET : Bool) (st : StreamState) (data : List Nat) :
    StreamState :=
  if st.found ≠ none ∧ ET = true then st
  else
    let buf := st.buffer ++ data
    chunkLoop kws caseS dd fn cs ov ET (buf.length + 1)
      { st with buffer := buf }

/-- `TextSearchEngine.search_in_stream` (basic-search path): feed the
delivered chunks through the callback, then return the latched result, or
search whatever remains in the buffer. -/
def search_in_stream (kws : List (List Nat)) (caseS : Bool) (dd fn : String)
    (cs ov : Nat) (ET : Bool) (chunks : List (List Nat)) :
    Option MatchResultB :=
  let st := chunks.foldl (feedChunk kws caseS dd fn cs ov ET) ⟨[], 1, none⟩
  match st.found with
  | some r => some r
  | none =>
    if st.buffer.isEmpty then none
    else searchChunk kws caseS dd fn st.buffer st.line

/-! ## Local-directory search (`SearchWorker._search_local_directory`) -/

/-- Python `haystack.count(needle)`: non-overlapping occurrences, scanning
left to right; `skip` counts positions still covered by the previous
match. -/
def pyCountAux {α : Type} [DecidableEq α] (sub : List α) :
    List α → Nat → Nat
  | [], _ => 0
  | _ :: rest, Nat.succ skip => pyCountAux sub rest skip
  | a :: rest, 0 =>
    if listStarts sub (a :: rest) then 1 + pyCountAux sub rest (sub.length - 1)
    else pyCountAux sub rest 0

/-- Python `str.count`: the empty needle is counted `len + 1` times. -/
def pyCount {α : Type} [DecidableEq α] (sub l : List α) : Nat :=
  if sub.isEmpty then l.length + 1 else pyCountAux sub l 0

/-- One result row built by `process_local_file`: the source constructs
`SearchResult(date_dir, filename, "Text Match", f"Found keyword count
times", line_number=1)`; the keyword and its count are kept structurally
here in place of the formatted `match_content` message. -/
structure LocalResult where
  date_dir : String
  filename : String
  match_type : String
  keyword : List Nat
  count : Nat
  line_number : Nat
  deriving DecidableEq

/-- `process_local_file` of `_search_local_directory`: read the file (text
content as code points, `none` when unreadable), return early under the
stop signal, then count each keyword's occurrences (case-folding both sides
unless case-sensitive) and emit one result per keyword with a positive
count; a file with no matching keyword yields `none`. -/
def processLocalFile (kws : List (List Nat)) (caseS : Bool) (dd fn : String)
    (content : Option (List Nat)) (stopSet : Bool) :
    Option (List LocalResult) :=
  if stopSet then none
  else
    match content with
    | none => none
    | some text =>
      let fileResults := kws.filterMap (fun kw =>
        let sk := if caseS then kw else lowerText kw
        let sc := if caseS then text else lowerText text
        let c := pyCount sk sc
        if 0 < c then
          some { date_dir := dd, filename := fn, match_type := "Text Match",
                 keyword := kw, count := c, line_number := 1 }
        else none)
      if fileResults.isEmpty then none else some fileResults

/-! ## Search coordinator (`SearchWorker` in `search_worker.py`) -/

/-- Python exception classes that the coordinator's control flow
distinguishes. -/
inductive PyError where
  | typeError
  | attributeError
  | valueError
  deriving DecidableEq

/-- The instance attributes assigned in `SearchProgress.__init__`. -/
def searchProgressAttrs : List String :=
  ["lock", "directories_total", "directories_processed", "files_total",
   "files_processed", "matches_found", "current_directory", "current_file",
   "start_time", "errors"]

/-- Whether `SearchProgress` objects carry a `total_files` attribute (read
by `self.progress.total_files += len(files)`; reading a missing attribute
raises `AttributeError`). -/
def progressHasTotalFiles : Bool := searchProgressAttrs.contains "total_files"

/-- `FTPManager.list_date_directories(self, start_date, end_date,
source_directory=None)`: at least 2 and at most 3 positional arguments
besides `self`. -/
def list_date_directories_minArgs : Nat := 2

def list_date_directories_maxArgs : Nat := 3

/-- A positional call to `list_date_directories`: Python raises `TypeError`
when the argument count does not fit the declared parameters. -/
def listDateDirectoriesCall (posArgs : Nat) (startD endD : DateInput)
    (lines : List String) : Except PyError (List String) :=
  if list_date_directories_minArgs ≤ posArgs
      ∧ posArgs ≤ list_date_directories_maxArgs then
    .ok (list_date_directories startD endD lines)
  else .error .typeError

/-- The call site in `_search_ftp_content` passes `(start_date, end_date,
source_directory, use_optimized)` — four positional arguments. -/
def contentCallArity : Nat := 4

/-- The call site in `_search_ftp_filenames` likewise passes four
positional arguments. -/
def filenamesCallArity : Nat := 4

/-- Observable outcome of `_execute_streaming_search`: how many directory
iterations passed the stop check, the final `processed_directories`
counter, how many tasks were ever submitted to the executor, the collected
results, and whether the loop was left through the stop-check `break`. -/
structure StreamRun where
  dirsChecked : Nat
  dirsProcessed : Nat
  tasksSubmitted : Nat
  results : List MatchResultB
  stoppedEarly : Bool
  deriving DecidableEq

/-- The directory loop of `_execute_streaming_search`.  `filesOf` is the
`list_xml_files` listing per directory and `stopAt t` the stop event as
observed by the `t`-th check.  Each iteration first checks the stop event;
then, under the per-directory `try`, an empty listing just advances
`processed_directories`, and a non-empty listing reaches
`self.progress.total_files += len(files)`, which raises `AttributeError`
(`searchProgressAttrs` carries no `total_files`), caught by the
per-directory `except`, which logs and advances the counter — so in either
branch the loop continues and the batch dispatch below that statement is
never reached: no task is submitted and no result appended. -/
def execDirsLoop (filesOf : String → List (String × Nat))
    (stopAt : Nat → Bool) : List String → Nat → StreamRun → StreamRun
  | [], _, acc => acc
  | dir :: rest, t, acc =>
    if stopAt t then { acc with stoppedEarly := true }
    else
      let acc1 : StreamRun := { acc with dirsChecked := acc.dirsChecked + 1 }
      if (filesOf dir).isEmpty then
        execDirsLoop filesOf stopAt rest (t + 1)
          { acc1 with dirsProcessed := acc1.dirsProcessed + 1 }
      else
        execDirsLoop filesOf stopAt rest (t + 1)
          { acc1 with dirsProcessed := acc1.dirsProcessed + 1 }

/-- `SearchWorker._execute_streaming_search` over the sorted directory
list; returns `self.results.copy()` plus the instrumentation above. -/
def executeStreamingSearch (dirs : List String)
    (filesOf : String → List (String × Nat)) (stopAt : Nat → Bool) :
    StreamRun :=
  execDirsLoop filesOf stopAt dirs 0 ⟨0, 0, 0, [], false⟩

/-- `BATCH_SIZE = 20` in `_execute_streaming_search`. -/
def BATCH_SIZE : Nat := 20

/-- `MAX_FILE_SIZE_MB * 1024 * 1024` — files above this are skipped. -/
def MAX_FILE_SIZE_BYTES : Nat := 50 * 1024 * 1024

/-- The per-directory batch dispatch of `_execute_streaming_search` (lines
below the `total_files` update; in the shipped code they are unreachable —
see `execDirsLoop` — but they carry the batch-level stop check): group the
files in batches of `BATCH_SIZE`, checking the stop event before each
batch, drop over-size files, and submit each batch.  Returns the submitted
batches and whether a stop check broke the loop.  Runs on fuel; the
wrapper passes `files.length`, enough since each step consumes at least
one file. -/
def batchLoopGo (stopAt : Nat → Bool) :
    Nat → List (String × Nat) → Nat → List (List (String × Nat)) × Bool
  | 0, _, _ => ([], false)
  | _ + 1, [], _ => ([], false)
  | fuel + 1, f :: rest, t =>
    if stopAt t then ([], true)
    else
      let batch := (f :: rest).take BATCH_SIZE
      let batchTasks := batch.filter (fun x => x.2 ≤ MAX_FILE_SIZE_BYTES)
      let r := batchLoopGo stopAt fuel ((f :: rest).drop BATCH_SIZE) (t + 1)
      (batchTasks :: r.1, r.2)

def batchLoop (stopAt : Nat → Bool) (files : List (String × Nat)) (t : Nat) :
    List (List (String × Nat)) × Bool :=
  batchLoopGo stopAt files.length files t

/-- The body of `_search_ftp_content` up to its blanket `except`: validate
the keywords (`raise ValueError` when empty), call
`list_date_directories` with four positional arguments, and on success run
the streaming search. -/
def searchFtpContentInner (keywords : List (List Nat)) (startD endD : DateInput)
    (lines : List String) (filesOf : String → List (String × Nat))
    (stopAt : Nat → Bool) : Except PyError (List MatchResultB) :=
  if keywords.isEmpty then .error .valueError
  else
    match listDateDirectoriesCall contentCallArity startD endD lines with
    | .error e => .error e
    | .ok dirs =>
      if dirs.isEmpty then .ok []
      else .ok (executeStreamingSearch dirs filesOf stopAt).results

/-- `SearchWorker._search_ftp_content`: the blanket
`except Exception: logger.error(...); return []` turns *any* failure of the
body — including the keyword-validation `ValueError` and the listing-call
`TypeError` — into an empty result list. -/
def search_ftp_content (keywords : List (List Nat)) (startD endD : DateInput)
    (lines : List String) (filesOf : String → List (String × Nat))
    (stopAt : Nat → Bool) : List MatchResultB :=
  match searchFtpContentInner keywords startD endD lines filesOf stopAt with
  | .ok rs => rs
  | .error _ => []

/-- `SearchWorker._search_ftp_filenames`: validate the patterns (`raise
ValueError` when empty), then call `list_date_directories` with four
positional arguments; its `except Exception` handler re-raises, so the
`TypeError` escapes to the caller.  `scan` stands for the per-directory
filename-matching loop, unreachable at run time because the listing call
always raises. -/
def search_ftp_filenames (keywords : List (List Nat)) (startD endD : DateInput)
    (lines : List String) (scan : List String → List MatchResultB) :
    Except PyError (List MatchResultB) :=
  if keywords.isEmpty then .error .valueError
  else
    match listDateDirectoriesCall filenamesCallArity startD endD lines with
    | .error e => .error e
    | .ok dirs => .ok (scan dirs)

/-- `SearchWorker._search_local_directory`: validate the keywords and the
base directory (both `raise ValueError`; the handler re-raises), then run
`process_local_file` over the discovered files (`(date_dir, filename,
content)` triples), extending the shared result list file by file. -/
def search_local_directory (keywords : List (List Nat)) (caseS : Bool)
    (dirOK : Bool) (files : List (String × String × Option (List Nat))) :
    Except PyError (List LocalResult) :=
  if keywords.isEmpty then .error .valueError
  else if !dirOK then .error .valueError
  else
    .ok (files.foldr
      (fun fi acc =>
        (processLocalFile keywords caseS fi.1 fi.2.1 fi.2.2 false).getD [] ++ acc)
      [])

/-- The three source paths `SearchWorker.search` dispatches on. -/
inductive SearchSource where
  | localDirectory
  | ftpFilenameOnly
  | ftpContent
  deriving DecidableEq

/-- Result of one `SearchWorker.search` call (local and remote rows have
different shapes in the source). -/
inductive PathResult where
  | localR (rs : List LocalResult)
  | remoteR (rs : List MatchResultB)
  deriving DecidableEq

/-- `SearchWorker.search`: dispatch on the source; its own
`except Exception as e: raise e` re-raises whatever the selected path
raises, so the caller sees exactly the path's outcome. -/
def searchWorkerSearch (source : SearchSource) (keywords : List (List Nat))
    (caseS dirOK : Bool) (files : List (String × String × Option (List Nat)))
    (startD endD : DateInput) (lines : List String)
    (filesOf : String → List (String × Nat))
    (scan : List String → List MatchResultB) (stopAt : Nat → Bool) :
    Except PyError PathResult :=
  match source with
  | .localDirectory =>
    (search_local_directory keywords caseS dirOK files).map .localR
  | .ftpFilenameOnly =>
    (search_ftp_filenames keywords startD endD lines scan).map .remoteR
  | .ftpContent =>
    .ok (.remoteR (search_ftp_content keywords startD endD lines filesOf stopAt))

/-- A monotone stop event: once set, it stays set (the `threading.Event` is
set once and never cleared mid-run). -/
def StopMono (stopAt : Nat → Bool) : Prop :=
  ∀ t u, t ≤ u → stopAt t = true → stopAt u = true

/-- Code points of an ASCII string literal. -/
def strCodes (s : String) : List Nat := s.data.map Char.toNat

/-! ## Byte positions and slices of encoded text -/

/-- Total UTF-8 byte length of a code-point sequence. -/
def byteLen (t : List Nat) : Nat := (encodeAll t).length

/-- Byte offset of the `i`-th character inside the encoded text. -/
def bytePos (t : List Nat) (i : Nat) : Nat := (encodeAll (t.take i)).length

/-! ## Case folding, occurrences and window matches -/

/-- The case folding the engine applies to keywords and text (`id` in
case-sensitive mode, `str.lower` otherwise). -/
def lowI (caseS : Bool) (u : List Nat) : List Nat :=
  if caseS then u else lowerText u

/-- The byte window `[a, a+len)` of the encoded text. -/
def sliceBytes (t : List Nat) (a len : Nat) : List Nat :=
  ((encodeAll t).drop a).take len

/-- Some keyword matches inside the given byte window, exactly as
`_search_in_chunk` evaluates it (decode, case-fold, substring search). -/
def WindowHasMatch (kws : List (List Nat)) (caseS : Bool) (t : List Nat)
    (a len : Nat) : Prop :=
  ∃ kw ∈ kws, OccursL (lowI caseS kw) (lowI caseS (decodeU (sliceBytes t a len)))

/-- Some keyword matches in the whole decoded text. -/
def WholeMatch (kws : List (List Nat)) (caseS : Bool) (t : List Nat) : Prop :=
  ∃ kw ∈ kws, OccursL (lowI caseS kw) (lowI caseS t)

/-! ## The chunk-machine invariant -/

/-- The stride of the streaming loop: each drained window advances the
buffer by `chunk_size - CHUNK_OVERLAP_SIZE` bytes. -/
def stride (cs ov : Nat) : Nat := cs - ov

/-- The first `K` windows of the stream (each `cs` bytes wide, starting at
multiples of the stride) contain no keyword match. -/
def WindowClear (kws : List (List Nat)) (caseS : Bool) (t : List Nat)
    (cs ov K : Nat) : Prop :=
  ∀ k < K, ¬ WindowHasMatch kws caseS t (k * stride cs ov) cs

/-- Invariant tying a stream state to the portion of the encoded text
consumed so far: either a result is latched and the whole text matches, or
the buffer is exactly the unconsumed tail of the last window start and all
earlier windows are match-free. -/
def ChunkInv (kws : List (List Nat)) (caseS : Bool) (t : List Nat)
    (cs ov consumed : Nat) (st : StreamState) : Prop :=
  match st.found with
  | some _ => WholeMatch kws caseS t
  | none => ∃ K,
      st.buffer = sliceBytes t (K * stride cs ov) (consumed - K * stride cs ov)
      ∧ K * stride cs ov ≤ consumed
      ∧ consumed - K * stride cs ov < cs
      ∧ WindowClear kws caseS t cs ov K

theorem listStarts_iff {α : Type} [DecidableEq α] (pat l : List α) :
    listStarts pat l = true ↔ ∃ y, l = pat ++ y := by
  induction pat generalizing l with
  | nil => simp [listStarts]
  | cons a ps ih =>
    cases l with
    | nil => simp [listStarts]
    | cons b l =>
      simp only [listStarts, Bool.and_eq_true, decide_eq_true_eq, ih]
      constructor
      · rintro ⟨rfl, y, rfl⟩; exact ⟨y, rfl⟩
      · rintro ⟨y, h⟩
        cases h
        exact ⟨rfl, y, rfl⟩

theorem listOccurs_iff {α : Type} [DecidableEq α] (pat l : List α) :
    listOccurs pat l = true ↔ OccursL pat l := by
  induction l with
  | nil =>
    simp only [listOccurs, List.isEmpty_iff, OccursL]
    constructor
    · rintro rfl; exact ⟨[], [], rfl⟩
    · rintro ⟨x, y, h⟩
      rcases List.append_eq_nil.mp h.symm with ⟨h1, h2⟩
      exact (List.append_eq_nil.mp h1).2
  | cons b l ih =>
    simp only [listOccurs, Bool.or_eq_true, listStarts_iff, ih, OccursL]
    constructor
    · rintro (⟨y, h⟩ | ⟨x, y, h⟩)
      · exact ⟨[], y, by simp [h]⟩
      · exact ⟨b :: x, y, by simp [h]⟩
    · rintro ⟨x, y, h⟩
      cases x with
      | nil => exact Or.inl ⟨y, by simpa using h⟩
      | cons c x =>
        right
        simp only [List.cons_append, List.cons.injEq] at h
        exact ⟨x, y, h.2⟩

theorem slashCount_append (a b : String) :
    slashCount (a ++ b) = slashCount a + slashCount b := by
  simp [slashCount, String.data_append, List.count_append]

/-- C10: every `SearchResult` gets `file_path = "/" ++ date_dir ++ "/Send File/"
++ filename`; the `Send File` segment is a literal fixed at construction and
independent of the configured send-file directory, so whenever a non-default
send subdirectory is configured the derived path differs from the remote
location `get_file_stream` actually reads (for real slash-free path
segments). -/
theorem searchResult_file_path_fixed_send_file
    (cfg : Settings) (d f mt mc : String) (ln : Nat) :
    (mkSearchResult cfg d f mt mc ln).file_path = "/" ++ d ++ "/Send File/" ++ f
    ∧ (∀ cfg2 : Settings,
        (mkSearchResult cfg d f mt mc ln).file_path
          = (mkSearchResult cfg2 d f mt mc ln).file_path)
    ∧ (noSlash d → noSlash f → noSlash cfg.source_directory →
        noSlash cfg.send_file_directory → cfg.send_file_directory ≠ "Send File" →
        (mkSearchResult cfg d f mt mc ln).file_path ≠ getFileStreamPath cfg d f) := by
  refine ⟨rfl, fun cfg2 => rfl, ?_⟩
  intro hd hf hs hsend _ heq
  have hc := congrArg slashCount heq
  unfold noSlash at hd hf hs hsend
  have h1 : slashCount "/" = 1 := by decide
  have h2 : slashCount "/Send File/" = 2 := by decide
  simp only [mkSearchResult, getFileStreamPath, getFileStreamDir,
    slashCount_append, h1, h2, hd, hf, hs, hsend] at hc
  omega

/-- Witness for `searchResult_file_path_fixed_send_file` at a concrete
non-default configuration. -/
theorem searchResult_file_path_fixed_send_file_witness :
    (mkSearchResult ⟨"SAMSUNG", "Receive File"⟩ "20240101" "a.xml" "" "" 0).file_path
      ≠ getFileStreamPath ⟨"SAMSUNG", "Receive File"⟩ "20240101" "a.xml" :=
  (searchResult_file_path_fixed_send_file ⟨"SAMSUNG", "Receive File"⟩
    "20240101" "a.xml" "" "" 0).2.2 (by decide) (by decide) (by decide)
    (by decide) (by decide)

theorem lineAccepted_eq_some (sb eb : PyDateTime) (line d : String) :
    lineAccepted sb eb line = some d ↔
      lineDirname line = some d ∧ d.length = 8 ∧ allDigits d = true ∧
        ∃ y m dd, parseYmd d = some (y, m, dd) ∧
          dtLE sb ⟨dirDateKey y m dd, 0⟩ ∧ dtLE ⟨dirDateKey y m dd, 0⟩ eb := by
  unfold lineAccepted
  cases hdn : lineDirname line with
  | none => simp
  | some dirname =>
    dsimp only
    by_cases hlen : dirname.length = 8 ∧ allDigits dirname = true
    · rw [if_pos hlen]
      cases hp : parseYmd dirname with
      | none =>
        constructor
        · intro h; cases h
        · rintro ⟨hsd, _, _, y, m, dd, hpd, _⟩
          obtain rfl : dirname = d := by simpa using hsd
          rw [hp] at hpd; cases hpd
      | some ymd =>
        obtain ⟨y, m, dd⟩ := ymd
        dsimp only
        by_cases hin :
            dtLE sb ⟨dirDateKey y m dd, 0⟩ ∧ dtLE ⟨dirDateKey y m dd, 0⟩ eb
        · rw [if_pos hin]
          constructor
          · intro h
            obtain rfl : dirname = d := by simpa using h
            exact ⟨rfl, hlen.1, hlen.2, y, m, dd, hp, hin.1, hin.2⟩
          · rintro ⟨hsd, _⟩
            obtain rfl : dirname = d := by simpa using hsd
            rfl
        · rw [if_neg hin]
          constructor
          · intro h; cases h
          · rintro ⟨hsd, _, _, y2, m2, dd2, hpd, h1, h2⟩
            obtain rfl : dirname = d := by simpa using hsd
            rw [hp] at hpd
            obtain ⟨rfl, rfl, rfl⟩ : y = y2 ∧ m = m2 ∧ dd = dd2 := by
              simpa using hpd
            exact absurd ⟨h1, h2⟩ hin
    · rw [if_neg hlen]
      constructor
      · intro h; cases h
      · rintro ⟨hsd, h8, hdig, _⟩
        obtain rfl : dirname = d := by simpa using hsd
        exact absurd ⟨h8, hdig⟩ hlen

/-- C1 (amended): a name appears in `list_date_directories` output iff some
listing line marks it as a directory, it is exactly 8 digits parsing as a
valid `YYYYMMDD` date, and the midnight datetime of that date lies between
the normalised bounds — where a bound given as a plain `date` is normalised
to start/end of day, but a bound given as a `datetime` is compared as the
exact instant it denotes (its time of day is *not* normalised); the result
is sorted ascending. -/
theorem list_date_directories_amended (startD endD : DateInput)
    (lines : List String) (d : String) :
    (d ∈ list_date_directories startD endD lines ↔
      (∃ line ∈ lines, lineDirname line = some d) ∧
        d.length = 8 ∧ allDigits d = true ∧
        ∃ y m dd, parseYmd d = some (y, m, dd) ∧
          dtLE (startBound startD) ⟨dirDateKey y m dd, 0⟩ ∧
          dtLE ⟨dirDateKey y m dd, 0⟩ (endBound endD)) ∧
    (list_date_directories startD endD lines).Sorted (· ≤ ·) := by
  constructor
  · rw [list_date_directories,
      (List.perm_insertionSort (· ≤ ·) _).mem_iff, List.mem_filterMap]
    constructor
    · rintro ⟨line, hline, hacc⟩
      rcases (lineAccepted_eq_some _ _ _ _).mp hacc with ⟨h1, h2, h3, h4⟩
      exact ⟨⟨line, hline, h1⟩, h2, h3, h4⟩
    · rintro ⟨⟨line, hline, h1⟩, h2, h3, h4⟩
      exact ⟨line, hline, (lineAccepted_eq_some _ _ _ _).mpr ⟨h1, h2, h3, h4⟩⟩
  · exact List.sorted_insertionSort _ _

/-- C1 counterexample: with the bounds supplied as `datetime`s, the listed
directory `20240802` lies inside the *date-only* range (12 Aug 2024 midnight
is on the start bound's own day and before the end bound's day), yet
`list_date_directories` excludes it, because a `datetime` start bound keeps
its time of day (here one microsecond past midnight) instead of being
normalised to start of day. -/
theorem list_date_directories_counterexample :
    lineDirname "drwxr-xr-x 1 owner group 0 Jan 1 00:00 20240802"
        = some "20240802"
      ∧ parseYmd "20240802" = some (2024, 8, 2)
      ∧ (startBound (.datetime ⟨20240802, 1⟩)).dateKey ≤ dirDateKey 2024 8 2
      ∧ dirDateKey 2024 8 2 ≤ (endBound (.datetime ⟨20240803, 0⟩)).dateKey
      ∧ "20240802" ∉
          list_date_directories (.datetime ⟨20240802, 1⟩)
            (.datetime ⟨20240803, 0⟩)
            ["drwxr-xr-x 1 owner group 0 Jan 1 00:00 20240802"] := by
  decide

theorem reach_active_le (st : PoolState) (h : Reach st) :
    st.idle.length + st.checkedOut.length ≤ st.active_connections
      ∧ st.active_connections ≤ st.pool_size := by
  induction h with
  | init n => simp
  | get st testOK connectOK fresh _ ih =>
    obtain ⟨n, idle, act, co⟩ := st
    rcases ih with ⟨h1, h2⟩
    simp only at h1 h2
    cases idle with
    | nil =>
      unfold get_connection createNew
      dsimp only
      split_ifs
      all_goals simp only [List.length_cons, List.length_nil] at h1 ⊢
      all_goals omega
    | cons c rest =>
      unfold get_connection createNew
      dsimp only
      split_ifs
      all_goals simp only [List.length_cons, List.length_nil] at h1 ⊢
      all_goals omega
  | ret st c healthNow _ hmem ih =>
    obtain ⟨n, idle, act, co⟩ := st
    rcases ih with ⟨h1, h2⟩
    simp only at h1 h2 hmem
    have herase : (co.erase c).length = co.length - 1 :=
      List.length_erase_of_mem hmem
    have hpos : 1 ≤ co.length :=
      List.length_pos.mpr (List.ne_nil_of_mem hmem)
    unfold return_connection
    dsimp only
    split_ifs
    all_goals
      simp only [List.length_append, List.length_cons, List.length_nil] at h1 ⊢
    all_goals omega

/-- C3 (amended): in every reachable pool state
`idle.size() + checkedOut ≤ pool_size`; but returning an *unhealthy*
session leaves `active_connections` (the capacity counter) and the idle
queue untouched — the session is silently dropped — so at capacity with an
empty idle queue a subsequent `get_connection` is still refused (it may
*not* create a replacement). -/
theorem pool_invariant_unhealthy_return_no_room (st : PoolState)
    (hst : Reach st) :
    (st.idle.length + st.checkedOut.length ≤ st.pool_size)
    ∧ (∀ c : Conn,
        (return_connection st c false).active_connections
            = st.active_connections
          ∧ (return_connection st c false).idle = st.idle)
    ∧ (∀ c : Conn, st.active_connections = st.pool_size → st.idle = [] →
        ∀ testOK connectOK fresh,
          (get_connection (return_connection st c false) testOK connectOK
              fresh).2 = none) := by
  obtain ⟨h1, h2⟩ := reach_active_le st hst
  refine ⟨le_trans h1 h2, fun c => ⟨rfl, rfl⟩, ?_⟩
  intro c hfull hidle testOK connectOK fresh
  obtain ⟨n, idle, act, co⟩ := st
  simp only at hfull hidle
  subst hidle
  subst hfull
  unfold return_connection get_connection createNew
  simp

/-- Witness for `pool_invariant_unhealthy_return_no_room` at a concrete
reachable state (one session checked out of a capacity-1 pool). -/
theorem pool_invariant_unhealthy_return_no_room_witness :
    (get_connection ⟨1, [], 0, []⟩ true true 0).1.idle.length
        + (get_connection ⟨1, [], 0, []⟩ true true 0).1.checkedOut.length
      ≤ (get_connection ⟨1, [], 0, []⟩ true true 0).1.pool_size :=
  (pool_invariant_unhealthy_return_no_room _
    (Reach.get _ true true 0 (Reach.init 1))).1

/-- C3 counterexample: capacity-1 pool, one session created and checked out
(`active_connections = 1`); returning it unhealthy leaves the counter at 1
and the queue empty, and the next `get_connection` — even with a successful
connect available — yields `none` instead of being permitted to create a
replacement. -/
theorem pool_unhealthy_return_counterexample :
    (get_connection ⟨1, [], 0, []⟩ true true 0).2 = some ⟨0, true⟩
    ∧ return_connection (get_connection ⟨1, [], 0, []⟩ true true 0).1
        ⟨0, true⟩ false = ⟨1, [], 1, []⟩
    ∧ (get_connection ⟨1, [], 1, []⟩ true true 1).2 = none := by
  decide

/-- C4 (amended): a file whose every attempt fails with a connection-class
error (refused/reset/timeout, or failure to acquire the stream) is attempted
exactly 3 times, with sleeps of 1s then 2s and a forced pool refresh before
each of the two retries; it then yields no result (never contributes to the
result list) and the worker returns normally — the failure is only logged,
the progress error list is left exactly as it was. -/
theorem search_file_conn_failure_retries {ρ : Type}
    (oracle : Nat → AttemptOutcome ρ) (errs0 : List String)
    (h : ∀ i, i < 3 → isConnFailure (oracle i)) :
    search_file false oracle errs0 = ⟨none, 3, [1, 2], 2, errs0⟩ := by
  have h0 := h 0 (by omega)
  have h1 := h 1 (by omega)
  have h2 := h 2 (by omega)
  unfold search_file searchFileLoop
  cases ho0 : oracle 0 <;> rw [ho0] at h0 <;>
    simp only [isConnFailure, reduceCtorEq, or_self, or_false, false_or] at h0
  all_goals cases ho1 : oracle 1 <;> rw [ho1] at h1 <;>
    simp only [isConnFailure, reduceCtorEq, or_self, or_false, false_or] at h1
  all_goals cases ho2 : oracle 2 <;> rw [ho2] at h2 <;>
    simp only [isConnFailure, reduceCtorEq, or_self, or_false, false_or] at h2
  all_goals simp [searchFileLoop, ho0, ho1, ho2, retry_delay, max_retries]

/-- Witness for `search_file_conn_failure_retries`: every attempt raises a
connection error. -/
theorem search_file_conn_failure_retries_witness :
    search_file false (fun _ => (AttemptOutcome.connError : AttemptOutcome Nat)) []
      = ⟨none, 3, [1, 2], 2, []⟩ :=
  search_file_conn_failure_retries _ _ (fun _ _ => Or.inr (Or.inl rfl))

/-- C4 counterexample: with every attempt failing on a connection error, the
file is skipped (`result = none`) after 3 attempts, but *no* error is
recorded in the progress error list (it is left empty), contrary to the
claimed `add_error` bookkeeping; and the sleeps performed are 1s and 2s (the
3s entry of `retry_delay` is never used). -/
theorem search_file_no_error_recorded_counterexample :
    (search_file false (fun _ => (AttemptOutcome.connError : AttemptOutcome Nat))
        []).result = none
    ∧ (search_file false (fun _ => (AttemptOutcome.connError : AttemptOutcome Nat))
        []).attempts = 3
    ∧ (search_file false (fun _ => (AttemptOutcome.connError : AttemptOutcome Nat))
        []).errors_out = []
    ∧ (search_file false (fun _ => (AttemptOutcome.connError : AttemptOutcome Nat))
        []).sleeps = [1, 2] := by
  refine ⟨rfl, rfl, rfl, rfl⟩

theorem execDirsLoop_no_dispatch (filesOf : String → List (String × Nat))
    (stopAt : Nat → Bool) (dirs : List String) :
    ∀ t acc, (execDirsLoop filesOf stopAt dirs t acc).tasksSubmitted
        = acc.tasksSubmitted
      ∧ (execDirsLoop filesOf stopAt dirs t acc).results = acc.results := by
  induction dirs with
  | nil => intro t acc; exact ⟨rfl, rfl⟩
  | cons dir rest ih =>
    intro t acc
    unfold execDirsLoop
    split_ifs with h1 h2
    · exact ⟨rfl, rfl⟩
    · exact ih (t + 1) _
    · exact ih (t + 1) _

theorem execDirsLoop_processed_all (filesOf : String → List (String × Nat))
    (dirs : List String) :
    ∀ t acc, (execDirsLoop filesOf (fun _ => false) dirs t acc).dirsProcessed
      = acc.dirsProcessed + dirs.length := by
  induction dirs with
  | nil => intro t acc; simp [execDirsLoop]
  | cons dir rest ih =>
    intro t acc
    unfold execDirsLoop
    dsimp only
    rw [if_neg (by simp)]
    split_ifs with h2
    · rw [ih]
      simp only [List.length_cons]
      omega
    · rw [ih]
      simp only [List.length_cons]
      omega

theorem execDirsLoop_checked_le (filesOf : String → List (String × Nat))
    (stopAt : Nat → Bool) (T : Nat) (hm : StopMono stopAt)
    (hT : stopAt T = true) (dirs : List String) :
    ∀ t acc, (execDirsLoop filesOf stopAt dirs t acc).dirsChecked
      ≤ acc.dirsChecked + (T - t) := by
  induction dirs with
  | nil => intro t acc; simp [execDirsLoop]
  | cons dir rest ih =>
    intro t acc
    unfold execDirsLoop
    dsimp only
    split_ifs with h1 h2
    · show acc.dirsChecked ≤ acc.dirsChecked + (T - t)
      omega
    · have htT : t < T := by
        by_contra hc
        rw [hm T t (by omega) hT] at h1
        exact h1 rfl
      have h3 := ih (t + 1) ⟨acc.dirsChecked + 1, acc.dirsProcessed + 1,
        acc.tasksSubmitted, acc.results, acc.stoppedEarly⟩
      dsimp only at h3
      omega
    · have htT : t < T := by
        by_contra hc
        rw [hm T t (by omega) hT] at h1
        exact h1 rfl
      have h3 := ih (t + 1) ⟨acc.dirsChecked + 1, acc.dirsProcessed + 1,
        acc.tasksSubmitted, acc.results, acc.stoppedEarly⟩
      dsimp only at h3
      omega

theorem execDirsLoop_stopped (filesOf : String → List (String × Nat))
    (stopAt : Nat → Bool) (T : Nat) (hm : StopMono stopAt)
    (hT : stopAt T = true) (dirs : List String) :
    ∀ t acc, t ≤ T → T < t + dirs.length →
      (execDirsLoop filesOf stopAt dirs t acc).stoppedEarly = true := by
  induction dirs with
  | nil =>
    intro t acc h1 h2
    simp only [List.length_nil] at h2
    omega
  | cons dir rest ih =>
    intro t acc h1 h2
    unfold execDirsLoop
    split_ifs with hs h3
    · rfl
    · have htT : t < T := by
        by_contra hc
        have : t = T := by omega
        rw [this, hT] at hs
        exact hs rfl
      exact ih (t + 1) _ (by omega) (by simp at h2; omega)
    · have htT : t < T := by
        by_contra hc
        have : t = T := by omega
        rw [this, hT] at hs
        exact hs rfl
      exact ih (t + 1) _ (by omega) (by simp at h2; omega)

theorem batchLoopGo_le (stopAt : Nat → Bool) (T : Nat) (hm : StopMono stopAt)
    (hT : stopAt T = true) :
    ∀ fuel files t, ((batchLoopGo stopAt fuel files t).1).length ≤ T - t := by
  intro fuel
  induction fuel with
  | zero => intro files t; simp [batchLoopGo]
  | succ fuel ih =>
    intro files t
    cases files with
    | nil => simp [batchLoopGo]
    | cons f rest =>
      unfold batchLoopGo
      split_ifs with hs
      · simp
      · have htT : t < T := by
          by_contra hc
          rw [hm T t (by omega) hT] at hs
          exact hs rfl
        simp only [List.length_cons]
        have := ih ((f :: rest).drop BATCH_SIZE) (t + 1)
        omega

/-- C8: once the shared stop signal is set (a monotone event, set at time
`T`), the coordinator's directory loop enters no iteration at or past the
signal (at most `T` iterations pass the per-directory check, and if the
signal fires before the directory list is exhausted the run ends through
the stop `break` — stopped, not completed); the batch loop likewise starts
no batch at or past the signal; and a worker whose task starts after the
signal returns at once without a single search attempt (no stream
acquisition, no sleeps, no pool refresh, no result). -/
theorem stop_signal_halts_dispatch (stopAt : Nat → Bool) (T : Nat)
    (hm : StopMono stopAt) (hT : stopAt T = true) :
    (∀ dirs filesOf,
        (executeStreamingSearch dirs filesOf stopAt).dirsChecked ≤ T
        ∧ (T < dirs.length →
            (executeStreamingSearch dirs filesOf stopAt).stoppedEarly = true))
    ∧ (∀ files, ((batchLoop stopAt files 0).1).length ≤ T)
    ∧ (∀ (ρ : Type) (oracle : Nat → AttemptOutcome ρ) (errs : List String),
        search_file true oracle errs = ⟨none, 0, [], 0, errs⟩) := by
  refine ⟨fun dirs filesOf => ⟨?_, fun hlt => ?_⟩, fun files => ?_,
    fun ρ oracle errs => rfl⟩
  · have := execDirsLoop_checked_le filesOf stopAt T hm hT dirs 0
      ⟨0, 0, 0, [], false⟩
    simpa [executeStreamingSearch] using this
  · exact execDirsLoop_stopped filesOf stopAt T hm hT dirs 0 _ (by omega)
      (by omega)
  · have := batchLoopGo_le stopAt T hm hT files.length files 0
    simpa [batchLoop] using this

/-- Witness for `stop_signal_halts_dispatch`: a stop event set from time 1
on; with three directories pending, at most one directory iteration starts
and the run ends stopped. -/
theorem stop_signal_halts_dispatch_witness :
    (executeStreamingSearch ["20240101", "20240102", "20240103"]
        (fun _ => []) (fun t => decide (0 < t))).dirsChecked ≤ 1
    ∧ (executeStreamingSearch ["20240101", "20240102", "20240103"]
        (fun _ => []) (fun t => decide (0 < t))).stoppedEarly = true := by
  have h := stop_signal_halts_dispatch (fun t => decide (0 < t)) 1
    (by intro t u htu h; simp at h ⊢; omega) (by decide)
  exact ⟨(h.1 _ _).1, (h.1 _ _).2 (by decide)⟩

/-- C9: the remote content search returns the empty result list without
searching any file: its `list_date_directories` call passes four positional
arguments against a three-parameter declaration, so it raises `TypeError`,
which the blanket handler converts into `[]`; and even if the listing
succeeded, `SearchProgress` has no `total_files` attribute, so the
per-directory update would raise `AttributeError` before any task is
submitted — the streaming dispatcher never submits a task and never
collects a result. -/
theorem search_ftp_content_always_empty :
    (∀ startD endD lines,
        listDateDirectoriesCall contentCallArity startD endD lines
          = .error .typeError)
    ∧ progressHasTotalFiles = false
    ∧ (∀ (keywords : List (List Nat)) startD endD lines filesOf stopAt,
        keywords ≠ [] →
          searchFtpContentInner keywords startD endD lines filesOf stopAt
              = .error .typeError
            ∧ search_ftp_content keywords startD endD lines filesOf stopAt = [])
    ∧ (∀ dirs filesOf stopAt,
        (executeStreamingSearch dirs filesOf stopAt).tasksSubmitted = 0
        ∧ (executeStreamingSearch dirs filesOf stopAt).results = []) := by
  refine ⟨fun startD endD lines => rfl, rfl, ?_, ?_⟩
  · intro keywords startD endD lines filesOf stopAt hne
    have hinner : searchFtpContentInner keywords startD endD lines filesOf stopAt
        = .error .typeError := by
      unfold searchFtpContentInner
      rw [if_neg (by simpa using hne)]
      rfl
    exact ⟨hinner, by unfold search_ftp_content; rw [hinner]⟩
  · intro dirs filesOf stopAt
    exact execDirsLoop_no_dispatch filesOf stopAt dirs 0 ⟨0, 0, 0, [], false⟩

/-- Witness for `search_ftp_content_always_empty` at a concrete non-empty
keyword list. -/
theorem search_ftp_content_always_empty_witness :
    searchFtpContentInner [[107]] (.date 0) (.date 0) []
        (fun _ => []) (fun _ => false) = .error .typeError
    ∧ search_ftp_content [[107]] (.date 0) (.date 0) []
        (fun _ => []) (fun _ => false) = [] :=
  search_ftp_content_always_empty.2.2.1 [[107]] (.date 0) (.date 0) []
    (fun _ => []) (fun _ => false) (by simp)

/-- C6 counterexample: on the remote content path an empty keyword list is
*not* surfaced as a hard failure: the `ValueError` raised by the validation
is caught by the path's blanket handler and the caller receives an
ordinary empty result list. -/
theorem empty_keywords_content_path_counterexample :
    searchFtpContentInner [] (.date 0) (.date 0) [] (fun _ => [])
        (fun _ => false) = .error .valueError
    ∧ searchWorkerSearch .ftpContent [] false false [] (.date 0) (.date 0)
        [] (fun _ => []) (fun _ => []) (fun _ => false)
        = .ok (.remoteR []) :=
  ⟨rfl, rfl⟩

/-- C6 (amended): with an empty keyword list, the local-directory and
filename-only paths raise the configuration `ValueError` to the caller
before any listing or dispatch, but the remote content path catches its own
`ValueError` and converts it into an empty result list; and once the
streaming dispatch has started, per-directory errors are swallowed — the
loop advances `processed_directories` through every directory instead of
escalating to a whole-run failure. -/
theorem empty_keywords_failure_amended :
    (∀ caseS dirOK files startD endD lines filesOf scan stopAt,
        searchWorkerSearch .localDirectory [] caseS dirOK files startD endD
            lines filesOf scan stopAt = .error .valueError)
    ∧ (∀ caseS dirOK files startD endD lines filesOf scan stopAt,
        searchWorkerSearch .ftpFilenameOnly [] caseS dirOK files startD endD
            lines filesOf scan stopAt = .error .valueError)
    ∧ (∀ caseS dirOK files startD endD lines filesOf scan stopAt,
        searchWorkerSearch .ftpContent [] caseS dirOK files startD endD
            lines filesOf scan stopAt = .ok (.remoteR []))
    ∧ (∀ dirs filesOf,
        (executeStreamingSearch dirs filesOf (fun _ => false)).dirsProcessed
          = dirs.length) := by
  refine ⟨fun _ _ _ _ _ _ _ _ _ => rfl, fun _ _ _ _ _ _ _ _ _ => rfl,
    fun _ _ _ _ _ _ _ _ _ => rfl, fun dirs filesOf => ?_⟩
  have := execDirsLoop_processed_all filesOf dirs 0 ⟨0, 0, 0, [], false⟩
  simpa [executeStreamingSearch] using this

theorem getD_if_isEmpty {α : Type} (l : List α) :
    (if l.isEmpty then (none : Option (List α)) else some l).getD [] = l := by
  cases l <;> simp

/-- The rows `process_local_file` returns for a readable file, as a plain
`filterMap` over the keywords. -/
theorem processLocalFile_getD (kws : List (List Nat)) (caseS : Bool)
    (dd fn : String) (text : List Nat) :
    (processLocalFile kws caseS dd fn (some text) false).getD []
      = kws.filterMap (fun kw =>
          if 0 < pyCount (if caseS then kw else lowerText kw)
              (if caseS then text else lowerText text) then
            some ⟨dd, fn, "Text Match", kw,
              pyCount (if caseS then kw else lowerText kw)
                (if caseS then text else lowerText text), 1⟩
          else none) := by
  unfold processLocalFile
  rw [if_neg (by simp)]
  exact getD_if_isEmpty _

theorem chunkLoop_latched (kws : List (List Nat)) (caseS : Bool)
    (dd fn : String) (cs ov : Nat) :
    ∀ fuel st, st.found ≠ none →
      chunkLoop kws caseS dd fn cs ov true fuel st = st := by
  intro fuel st h
  cases fuel with
  | zero => rfl
  | succ fuel =>
    unfold chunkLoop
    rw [if_neg]
    rintro ⟨-, h2 | h2⟩
    · exact h h2
    · exact absurd h2 (by simp)

theorem feedChunk_latched (kws : List (List Nat)) (caseS : Bool)
    (dd fn : String) (cs ov : Nat) (st : StreamState) (data : List Nat)
    (h : st.found ≠ none) :
    feedChunk kws caseS dd fn cs ov true st data = st := by
  unfold feedChunk
  rw [if_pos ⟨h, rfl⟩]

theorem foldl_feedChunk_latched (kws : List (List Nat)) (caseS : Bool)
    (dd fn : String) (cs ov : Nat) (chunks : List (List Nat)) :
    ∀ st : StreamState, st.found ≠ none →
      chunks.foldl (feedChunk kws caseS dd fn cs ov true) st = st := by
  induction chunks with
  | nil => intro st h; rfl
  | cons c rest ih =>
    intro st h
    rw [List.foldl_cons, feedChunk_latched kws caseS dd fn cs ov st c h]
    exact ih st h

/-- C7 (amended): with early termination enabled, the streaming engine
latches the first match found and ignores every byte delivered afterwards,
returning exactly that single match; with early termination disabled the
streaming engine still returns only the first match found — it never
produces per-keyword counts (see the counterexample); occurrence counting
lives solely on the local-directory path, whose `process_local_file`
unconditionally emits, for each keyword with a positive (case-folded,
non-overlapping) occurrence count over the whole decoded content, one
result carrying that count — e.g. two case-insensitively present keywords
each yield a count, as in the concrete instance proved here. -/
theorem early_termination_first_match_and_local_counts :
    (∀ (kws : List (List Nat)) (caseS : Bool) (dd fn : String) (cs ov : Nat)
        (chunks1 chunks2 : List (List Nat)) (r : MatchResultB),
        (chunks1.foldl (feedChunk kws caseS dd fn cs ov true)
            ⟨[], 1, none⟩).found = some r →
        search_in_stream kws caseS dd fn cs ov true (chunks1 ++ chunks2)
          = some r)
    ∧ (∀ (kws : List (List Nat)) (caseS : Bool) (dd fn : String)
        (text : List Nat),
        (∀ kw, kw ∈ kws →
          0 < pyCount (if caseS then kw else lowerText kw)
              (if caseS then text else lowerText text) →
          ({ date_dir := dd, filename := fn, match_type := "Text Match",
             keyword := kw,
             count := pyCount (if caseS then kw else lowerText kw)
               (if caseS then text else lowerText text),
             line_number := 1 } : LocalResult)
            ∈ (processLocalFile kws caseS dd fn (some text) false).getD [])
        ∧ (∀ res, res ∈ (processLocalFile kws caseS dd fn (some text)
              false).getD [] →
            res.keyword ∈ kws
            ∧ res.count = pyCount
                (if caseS then res.keyword else lowerText res.keyword)
                (if caseS then text else lowerText text)
            ∧ 0 < res.count ∧ res.line_number = 1))
    ∧ (processLocalFile [strCodes "KEYWORD1", strCodes "keyword2"] false
          "d" "f" (some (strCodes "xx keyword1 here yy keyword2 there")) false
        = some
          [⟨"d", "f", "Text Match", strCodes "KEYWORD1", 1, 1⟩,
           ⟨"d", "f", "Text Match", strCodes "keyword2", 1, 1⟩]
      ∧ search_in_stream [strCodes "KEYWORD1", strCodes "keyword2"] false
          "20240101" "a.xml" 12 8 true
          [strCodes "xx keyword1 here yy keyword2 there"]
        = some ⟨"20240101", "a.xml", "Text Match", strCodes "xx keyword1", 1⟩) := by
  refine ⟨?_, ?_, by decide, by decide⟩
  · intro kws caseS dd fn cs ov chunks1 chunks2 r h
    unfold search_in_stream
    rw [List.foldl_append,
      foldl_feedChunk_latched kws caseS dd fn cs ov chunks2 _ (by rw [h]; simp)]
    dsimp only
    rw [h]
  · intro kws caseS dd fn text
    rw [processLocalFile_getD]
    constructor
    · intro kw hkw hpos
      refine List.mem_filterMap.mpr ⟨kw, hkw, ?_⟩
      rw [if_pos hpos]
    · intro res hres
      rcases List.mem_filterMap.mp hres with ⟨kw, hkw, hf⟩
      by_cases hpos : 0 < pyCount (if caseS then kw else lowerText kw)
          (if caseS then text else lowerText text)
      · rw [if_pos hpos] at hf
        cases hf
        exact ⟨hkw, rfl, hpos, rfl⟩
      · rw [if_neg hpos] at hf
        cases hf

/-- Witness for `early_termination_first_match_and_local_counts`: the
latched first match survives arbitrary further stream data. -/
theorem early_termination_first_match_and_local_counts_witness :
    search_in_stream [strCodes "KEYWORD1", strCodes "keyword2"] false
        "20240101" "a.xml" 12 8 true
        ([strCodes "xx keyword1 here yy keyword2 there"] ++ [[65, 66, 67]])
      = some ⟨"20240101", "a.xml", "Text Match", strCodes "xx keyword1", 1⟩ :=
  early_termination_first_match_and_local_counts.1
    [strCodes "KEYWORD1", strCodes "keyword2"] false "20240101" "a.xml" 12 8
    [strCodes "xx keyword1 here yy keyword2 there"] [[65, 66, 67]]
    ⟨"20240101", "a.xml", "Text Match", strCodes "xx keyword1", 1⟩ (by decide)

/-- C7 counterexample: both keywords occur (case-insensitively) in the
content, yet the streaming engine invoked with early termination disabled
(the `find_all_matches` path of `_search_file`) returns a single
first-match record — whose context window does not even mention the second
keyword — rather than occurrence counts of each keyword. -/
theorem find_all_streaming_single_result_counterexample :
    0 < pyCount (lowerText (strCodes "KEYWORD1"))
        (lowerText (strCodes "xx keyword1 here yy keyword2 there"))
    ∧ 0 < pyCount (strCodes "keyword2")
        (lowerText (strCodes "xx keyword1 here yy keyword2 there"))
    ∧ search_in_stream [strCodes "KEYWORD1", strCodes "keyword2"] false
        "20240101" "a.xml" 12 8 false
        [strCodes "xx keyword1 here yy keyword2 there"]
      = some ⟨"20240101", "a.xml", "Text Match", strCodes "xx keyword1", 1⟩
    ∧ listOccurs (strCodes "keyword2") (strCodes "xx keyword1") = false := by
  decide

/-- C5: after a full window is processed, `search_in_stream` advances the
line counter by the newline count of the *whole* window
(`line_number += chunk.count(b'\n')`), although the trailing `ov` bytes
stay in the buffer and are scanned again — so a newline inside the
retained overlap is counted twice.  Concrete run (`chunk_size = 4`,
`overlap = 2`, keyword `ab`, input `pq\nrab`): the match starts at byte
offset 4 of the whole input, preceded by exactly one newline, so the
correct 1-based line number is 2, but the engine reports 3 (the newline at
offset 2 lies in the overlap of the first window and is counted by both
windows). -/
theorem line_number_overlap_double_count :
    search_in_stream [[97, 98]] false "20240101" "a.xml" 4 2 true
        [[112, 113, 10, 114, 97, 98]]
      = some ⟨"20240101", "a.xml", "Text Match", [114, 97, 98], 3⟩
    ∧ firstOcc [97, 98] [112, 113, 10, 114, 97, 98] = some 4
    ∧ countNl ([112, 113, 10, 114, 97, 98].take 4) = 1
    ∧ 1 + countNl ([112, 113, 10, 114, 97, 98].take 4) = 2 := by
  decide

/-! ## UTF-8 decode/encode facts used for the chunk-boundary property -/

theorem contB_iff (b : Nat) : contB b = true ↔ 128 ≤ b ∧ b < 192 := by
  unfold contB
  simp

theorem decodeU_ascii (b : Nat) (rest : List Nat) (h : b < 128) :
    decodeU (b :: rest) = b :: decodeU rest := by
  rcases rest with _ | ⟨c1, _ | ⟨c2, _ | ⟨c3, r3⟩⟩⟩ <;> simp [decodeU, h]

theorem decodeU_single (b : Nat) (h : 128 ≤ b) : decodeU [b] = [] := by
  have h1 : ¬(b < 128) := by omega
  simp [decodeU, h1]

theorem decodeU_skip1 (b : Nat) (rest : List Nat) (h1 : 128 ≤ b)
    (h2 : b < 194) : decodeU (b :: rest) = decodeU rest := by
  have e1 : ¬(b < 128) := by omega
  rcases rest with _ | ⟨c1, _ | ⟨c2, _ | ⟨c3, r3⟩⟩⟩ <;> simp [decodeU, e1, h2]

theorem decodeU_two_ok (b c1 : Nat) (rest : List Nat) (h1 : 194 ≤ b)
    (h2 : b < 224) (hc : contB c1 = true) :
    decodeU (b :: c1 :: rest) = ((b - 192) * 64 + (c1 - 128)) :: decodeU rest := by
  have e1 : ¬(b < 128) := by omega
  have e2 : ¬(b < 194) := by omega
  rcases rest with _ | ⟨c2, _ | ⟨c3, r3⟩⟩ <;> simp [decodeU, e1, e2, h2, hc]

theorem decodeU_three_ok (b c1 c2 : Nat) (rest : List Nat) (h1 : 224 ≤ b)
    (h2 : b < 240) (hc1 : cont1OK b c1 = true) (hc2 : contB c2 = true) :
    decodeU (b :: c1 :: c2 :: rest)
      = ((b - 224) * 4096 + (c1 - 128) * 64 + (c2 - 128)) :: decodeU rest := by
  have e1 : ¬(b < 128) := by omega
  have e2 : ¬(b < 194) := by omega
  have e3 : ¬(b < 224) := by omega
  rcases rest with _ | ⟨c3, r3⟩ <;> simp [decodeU, e1, e2, e3, h2, hc1, hc2]

theorem decodeU_three_trunc2 (b c1 : Nat) (h1 : 224 ≤ b) (h2 : b < 240)
    (hc1 : cont1OK b c1 = true) : decodeU [b, c1] = [] := by
  have e1 : ¬(b < 128) := by omega
  have e2 : ¬(b < 194) := by omega
  have e3 : ¬(b < 224) := by omega
  simp [decodeU, e1, e2, e3, h2, hc1]

theorem decodeU_four_ok (b c1 c2 c3 : Nat) (rest : List Nat) (h1 : 240 ≤ b)
    (h2 : b < 245) (hc1 : cont1OK b c1 = true) (hc2 : contB c2 = true)
    (hc3 : contB c3 = true) :
    decodeU (b :: c1 :: c2 :: c3 :: rest)
      = ((b - 240) * 262144 + (c1 - 128) * 4096 + (c2 - 128) * 64 + (c3 - 128))
          :: decodeU rest := by
  have e1 : ¬(b < 128) := by omega
  have e2 : ¬(b < 194) := by omega
  have e3 : ¬(b < 224) := by omega
  have e4 : ¬(b < 240) := by omega
  simp [decodeU, e1, e2, e3, e4, h2, hc1, hc2, hc3]

theorem decodeU_four_trunc2 (b c1 : Nat) (h1 : 240 ≤ b) (h2 : b < 245)
    (hc1 : cont1OK b c1 = true) : decodeU [b, c1] = [] := by
  have e1 : ¬(b < 128) := by omega
  have e2 : ¬(b < 194) := by omega
  have e3 : ¬(b < 224) := by omega
  have e4 : ¬(b < 240) := by omega
  simp [decodeU, e1, e2, e3, e4, h2, hc1]

theorem decodeU_four_trunc3 (b c1 c2 : Nat) (h1 : 240 ≤ b) (h2 : b < 245)
    (hc1 : cont1OK b c1 = true) (hc2 : contB c2 = true) :
    decodeU [b, c1, c2] = [] := by
  have e1 : ¬(b < 128) := by omega
  have e2 : ¬(b < 194) := by omega
  have e3 : ¬(b < 224) := by omega
  have e4 : ¬(b < 240) := by omega
  simp [decodeU, e1, e2, e3, e4, h2, hc1, hc2]

theorem decodeU_cont (b : Nat) (rest : List Nat) (h : contB b = true) :
    decodeU (b :: rest) = decodeU rest := by
  rw [contB_iff] at h
  exact decodeU_skip1 b rest h.1 (by omega)

theorem decodeU_conts (l : List Nat) (rest : List Nat)
    (h : ∀ b ∈ l, contB b = true) : decodeU (l ++ rest) = decodeU rest := by
  induction l with
  | nil => rfl
  | cons b l2 ih =>
    rw [List.cons_append, decodeU_cont b _ (h b (by simp))]
    exact ih (fun b2 hb2 => h b2 (by simp [hb2]))

theorem cont1OK_enc3 (c : Nat) (h1 : 2048 ≤ c) (h2 : c < 65536)
    (hsur : ¬(55296 ≤ c ∧ c < 57344)) :
    cont1OK (224 + c / 4096) (128 + c / 64 % 64) = true := by
  unfold cont1OK
  split_ifs with g1 g2 g3 g4
  · simp only [Bool.and_eq_true, decide_eq_true_eq]
    omega
  · simp only [Bool.and_eq_true, decide_eq_true_eq]
    omega
  · omega
  · omega
  · rw [contB_iff]
    omega

theorem cont1OK_enc4 (c : Nat) (h1 : 65536 ≤ c) (h2 : c < 1114112) :
    cont1OK (240 + c / 262144) (128 + c / 4096 % 64) = true := by
  unfold cont1OK
  split_ifs with g1 g2 g3 g4
  · omega
  · omega
  · simp only [Bool.and_eq_true, decide_eq_true_eq]
    omega
  · simp only [Bool.and_eq_true, decide_eq_true_eq]
    omega
  · rw [contB_iff]
    omega

theorem decode_encodeChar (c : Nat) (hc : ValidScalar c) (rest : List Nat) :
    decodeU (encodeChar c ++ rest) = c :: decodeU rest := by
  obtain ⟨hlt, hsur⟩ := hc
  unfold encodeChar
  by_cases h1 : c < 128
  · rw [if_pos h1, List.cons_append, List.nil_append,
      decodeU_ascii c rest h1]
  · rw [if_neg h1]
    by_cases h2 : c < 2048
    · rw [if_pos h2]
      show decodeU ((192 + c / 64) :: (128 + c % 64) :: rest) = c :: decodeU rest
      rw [decodeU_two_ok (192 + c / 64) (128 + c % 64) rest (by omega)
        (by omega) (by rw [contB_iff]; omega)]
      congr 1
      omega
    · rw [if_neg h2]
      by_cases h3 : c < 65536
      · rw [if_pos h3]
        show decodeU ((224 + c / 4096) :: (128 + c / 64 % 64)
            :: (128 + c % 64) :: rest) = c :: decodeU rest
        rw [decodeU_three_ok (224 + c / 4096) (128 + c / 64 % 64)
          (128 + c % 64) rest (by omega) (by omega)
          (cont1OK_enc3 c (by omega) h3 hsur) (by rw [contB_iff]; omega)]
        congr 1
        omega
      · rw [if_neg h3]
        show decodeU ((240 + c / 262144) :: (128 + c / 4096 % 64)
            :: (128 + c / 64 % 64) :: (128 + c % 64) :: rest)
          = c :: decodeU rest
        rw [decodeU_four_ok (240 + c / 262144) (128 + c / 4096 % 64)
          (128 + c / 64 % 64) (128 + c % 64) rest (by omega) (by omega)
          (cont1OK_enc4 c (by omega) hlt) (by rw [contB_iff]; omega)
          (by rw [contB_iff]; omega)]
        congr 1
        omega

theorem decode_encodeAll (t : List Nat) (h : ∀ c ∈ t, ValidScalar c) :
    decodeU (encodeAll t) = t := by
  induction t with
  | nil => rfl
  | cons c t2 ih =>
    show decodeU (encodeChar c ++ encodeAll t2) = c :: t2
    rw [decode_encodeChar c (h c (by simp)) (encodeAll t2),
      ih (fun c2 hc2 => h c2 (by simp [hc2]))]

theorem encodeChar_length_pos (c : Nat) : 0 < (encodeChar c).length := by
  unfold encodeChar
  split_ifs <;> simp

theorem encodeChar_tail_cont (c : Nat) (hc : ValidScalar c) :
    ∀ b ∈ (encodeChar c).drop 1, contB b = true := by
  obtain ⟨hlt, hsur⟩ := hc
  unfold encodeChar
  split_ifs with h1 h2 h3 <;> intro b hb <;> simp at hb
  · rw [contB_iff]; omega
  · rcases hb with rfl | rfl <;> (rw [contB_iff]; omega)
  · rcases hb with rfl | rfl | rfl <;> (rw [contB_iff]; omega)

theorem decodeU_truncated (c : Nat) (hc : ValidScalar c) (k : Nat)
    (h1 : 0 < k) (h2 : k < (encodeChar c).length) :
    decodeU ((encodeChar c).take k) = [] := by
  obtain ⟨hlt, hsur⟩ := hc
  unfold encodeChar at h2 ⊢
  split_ifs at h2 ⊢ with g1 g2 g3
  · simp at h2; omega
  · simp only [List.length_cons, List.length_nil] at h2
    have hk : k = 1 := by omega
    subst hk
    show decodeU [192 + c / 64] = []
    exact decodeU_single _ (by omega)
  · simp only [List.length_cons, List.length_nil] at h2
    have hk : k = 1 ∨ k = 2 := by omega
    rcases hk with rfl | rfl
    · show decodeU [224 + c / 4096] = []
      exact decodeU_single _ (by omega)
    · show decodeU [224 + c / 4096, 128 + c / 64 % 64] = []
      exact decodeU_three_trunc2 _ _ (by omega) (by omega)
        (cont1OK_enc3 c (by omega) (by omega) hsur)
  · simp only [List.length_cons, List.length_nil] at h2
    have hk : k = 1 ∨ k = 2 ∨ k = 3 := by omega
    rcases hk with rfl | rfl | rfl
    · show decodeU [240 + c / 262144] = []
      exact decodeU_single _ (by omega)
    · show decodeU [240 + c / 262144, 128 + c / 4096 % 64] = []
      exact decodeU_four_trunc2 _ _ (by omega) (by omega)
        (cont1OK_enc4 c (by omega) hlt)
    · show decodeU [240 + c / 262144, 128 + c / 4096 % 64, 128 + c / 64 % 64]
          = []
      exact decodeU_four_trunc3 _ _ _ (by omega) (by omega)
        (cont1OK_enc4 c (by omega) hlt) (by rw [contB_iff]; omega)

theorem decodeU_midchar (c : Nat) (hc : ValidScalar c) (k : Nat) (h1 : 0 < k)
    (w : List Nat) : decodeU ((encodeChar c).drop k ++ w) = decodeU w := by
  refine decodeU_conts _ _ (fun b hb => encodeChar_tail_cont c hc b ?_)
  have hdk : (encodeChar c).drop k = ((encodeChar c).drop 1).drop (k - 1) := by
    rw [List.drop_drop]
    congr 1
    omega
  rw [hdk] at hb
  exact List.drop_subset _ _ hb

theorem encodeAll_append (x y : List Nat) :
    encodeAll (x ++ y) = encodeAll x ++ encodeAll y := by
  induction x with
  | nil => rfl
  | cons c x2 ih =>
    show encodeChar c ++ encodeAll (x2 ++ y) = (encodeChar c ++ encodeAll x2) ++ _
    rw [ih, List.append_assoc]

theorem bytePos_zero (t : List Nat) : bytePos t 0 = 0 := rfl

theorem bytePos_cons (c : Nat) (t : List Nat) (i : Nat) :
    bytePos (c :: t) (i + 1) = (encodeChar c).length + bytePos t i := by
  unfold bytePos
  rw [List.take_succ_cons]
  show (encodeChar c ++ encodeAll (t.take i)).length = _
  rw [List.length_append]

theorem bytePos_succ_le (t : List Nat) (i : Nat) :
    bytePos t i ≤ bytePos t (i + 1) := by
  induction t generalizing i with
  | nil => simp [bytePos]
  | cons c t2 ih =>
    cases i with
    | zero => simp [bytePos_zero, bytePos_cons]
    | succ i =>
      rw [bytePos_cons, bytePos_cons]
      exact Nat.add_le_add_left (ih i) _

theorem bytePos_mono (t : List Nat) (i j : Nat) (h : i ≤ j) :
    bytePos t i ≤ bytePos t j := by
  induction j with
  | zero => simp at h; simp [h]
  | succ j ih =>
    rcases Nat.lt_or_ge i (j + 1) with hlt | hge
    · exact le_trans (ih (by omega)) (bytePos_succ_le t j)
    · have : i = j + 1 := by omega
      simp [this]

theorem bytePos_strict (t : List Nat) (i : Nat) (h : i < t.length) :
    bytePos t i < bytePos t (i + 1) := by
  induction t generalizing i with
  | nil => simp at h
  | cons c t2 ih =>
    cases i with
    | zero =>
      rw [bytePos_zero, bytePos_cons]
      have := encodeChar_length_pos c
      omega
    | succ i =>
      rw [bytePos_cons, bytePos_cons]
      have := ih i (by simpa using h)
      omega

theorem bytePos_le_byteLen (t : List Nat) (i : Nat) :
    bytePos t i ≤ byteLen t := by
  unfold bytePos byteLen
  conv_rhs => rw [← List.take_append_drop i t]
  rw [encodeAll_append, List.length_append]
  omega

theorem bytePos_length (t : List Nat) : bytePos t t.length = byteLen t := by
  unfold bytePos byteLen
  rw [List.take_length]

theorem decodeU_all_conts (l : List Nat) (h : ∀ b ∈ l, contB b = true) :
    decodeU l = [] := by
  have := decodeU_conts l [] h
  simpa using this

theorem decode_slice : ∀ (t : List Nat), (∀ c ∈ t, ValidScalar c) →
    ∀ a len, ∃ i k,
      decodeU (((encodeAll t).drop a).take len) = (t.drop i).take k
        ∧ (a = 0 → i = 0) := by
  intro t
  induction t with
  | nil =>
    intro hv a len
    exact ⟨0, 0, by simp [encodeAll, decodeU], fun _ => rfl⟩
  | cons c t2 ih =>
    intro hv a len
    have hc := hv c (by simp)
    have hv2 : ∀ x ∈ t2, ValidScalar x := fun x hx => hv x (by simp [hx])
    have hmpos := encodeChar_length_pos c
    by_cases ha : (encodeChar c).length ≤ a
    · have hdrop : (encodeAll (c :: t2)).drop a
          = (encodeAll t2).drop (a - (encodeChar c).length) := by
        show (encodeChar c ++ encodeAll t2).drop a = _
        rw [List.drop_append_eq_append_drop, List.drop_eq_nil_of_le ha,
          List.nil_append]
      rw [hdrop]
      obtain ⟨i, k, heq, hpre⟩ := ih hv2 (a - (encodeChar c).length) len
      refine ⟨i + 1, k, ?_, fun h0 => absurd h0 (by omega)⟩
      rw [heq, List.drop_succ_cons]
    · push_neg at ha
      by_cases ha0 : a = 0
      · subst ha0
        by_cases hlen : (encodeChar c).length ≤ len
        · have htake : ((encodeAll (c :: t2)).drop 0).take len
              = encodeChar c ++ (encodeAll t2).take (len - (encodeChar c).length) := by
            rw [List.drop_zero]
            show (encodeChar c ++ encodeAll t2).take len = _
            rw [List.take_append_eq_append_take, List.take_of_length_le hlen]
          rw [htake, decode_encodeChar c hc]
          obtain ⟨i, k, heq, hpre⟩ := ih hv2 0 (len - (encodeChar c).length)
          have hi0 : i = 0 := hpre rfl
          subst hi0
          simp only [List.drop_zero] at heq
          rw [heq]
          refine ⟨0, k + 1, ?_, fun _ => rfl⟩
          simp [List.take_succ_cons]
        · push_neg at hlen
          by_cases hlen0 : len = 0
          · subst hlen0
            exact ⟨0, 0, by simp [decodeU], fun _ => rfl⟩
          · have htake : ((encodeAll (c :: t2)).drop 0).take len
                = (encodeChar c).take len := by
              rw [List.drop_zero]
              show (encodeChar c ++ encodeAll t2).take len = _
              rw [List.take_append_eq_append_take,
                show len - (encodeChar c).length = 0 from by omega,
                List.take_zero, List.append_nil]
            rw [htake, decodeU_truncated c hc len (by omega) hlen]
            exact ⟨0, 0, by simp, fun _ => rfl⟩
      · by_cases hlen2 : len ≤ (encodeChar c).length - a
        · have hsub : ((encodeAll (c :: t2)).drop a).take len
              = ((encodeChar c).drop a).take len := by
            show ((encodeChar c ++ encodeAll t2).drop a).take len = _
            rw [List.drop_append_eq_append_drop,
              show a - (encodeChar c).length = 0 from by omega, List.drop_zero,
              List.take_append_eq_append_take,
              show len - ((encodeChar c).drop a).length = 0 from by
                rw [List.length_drop]; omega,
              List.take_zero, List.append_nil]
          rw [hsub]
          have hdec : decodeU (((encodeChar c).drop a).take len) = [] := by
            refine decodeU_all_conts _ (fun b hb => ?_)
            refine encodeChar_tail_cont c hc b ?_
            have hb2 := List.take_subset len _ hb
            have hdk : (encodeChar c).drop a
                = ((encodeChar c).drop 1).drop (a - 1) := by
              rw [List.drop_drop]
              congr 1
              omega
            rw [hdk] at hb2
            exact List.drop_subset _ _ hb2
          rw [hdec]
          exact ⟨0, 0, by simp, fun h => absurd h ha0⟩
        · push_neg at hlen2
          have hsplit : ((encodeAll (c :: t2)).drop a).take len
              = (encodeChar c).drop a
                ++ (encodeAll t2).take (len - ((encodeChar c).length - a)) := by
            show ((encodeChar c ++ encodeAll t2).drop a).take len = _
            rw [List.drop_append_eq_append_drop,
              show a - (encodeChar c).length = 0 from by omega, List.drop_zero,
              List.take_append_eq_append_take,
              List.take_of_length_le (by rw [List.length_drop]; omega),
              List.length_drop]
          rw [hsplit, decodeU_midchar c hc a (by omega)]
          obtain ⟨i, k, heq, hpre⟩ := ih hv2 0 (len - ((encodeChar c).length - a))
          have hi0 : i = 0 := hpre rfl
          subst hi0
          simp only [List.drop_zero] at heq
          rw [heq]
          refine ⟨1, k, ?_, fun h => absurd h ha0⟩
          rw [List.drop_succ_cons, List.drop_zero]

theorem encSlice_into_tail (c : Nat) (t2 : List Nat) (a : Nat)
    (h : (encodeChar c).length ≤ a) :
    (encodeAll (c :: t2)).drop a
      = (encodeAll t2).drop (a - (encodeChar c).length) := by
  show (encodeChar c ++ encodeAll t2).drop a = _
  rw [List.drop_append_eq_append_drop, List.drop_eq_nil_of_le h,
    List.nil_append]

theorem encSlice_head_full (c : Nat) (t2 : List Nat) (len : Nat)
    (h : (encodeChar c).length ≤ len) :
    ((encodeAll (c :: t2)).drop 0).take len
      = encodeChar c ++ (encodeAll t2).take (len - (encodeChar c).length) := by
  rw [List.drop_zero]
  show (encodeChar c ++ encodeAll t2).take len = _
  rw [List.take_append_eq_append_take, List.take_of_length_le h]

theorem encSlice_mid (c : Nat) (t2 : List Nat) (a len : Nat) (h1 : 0 < a)
    (h2 : a ≤ (encodeChar c).length)
    (h3 : (encodeChar c).length - a < len) :
    ((encodeAll (c :: t2)).drop a).take len
      = (encodeChar c).drop a
        ++ (encodeAll t2).take (len - ((encodeChar c).length - a)) := by
  show ((encodeChar c ++ encodeAll t2).drop a).take len = _
  rw [List.drop_append_eq_append_drop,
    show a - (encodeChar c).length = 0 from by omega, List.drop_zero,
    List.take_append_eq_append_take,
    List.take_of_length_le (by rw [List.length_drop]; omega),
    List.length_drop]

theorem decode_slice_contains : ∀ (t : List Nat), (∀ c ∈ t, ValidScalar c) →
    ∀ i L a len, i + L ≤ t.length →
      a ≤ bytePos t i → bytePos t (i + L) ≤ a + len →
      ∃ x y, decodeU (((encodeAll t).drop a).take len)
          = x ++ (t.drop i).take L ++ y
        ∧ (a = bytePos t i → x = []) := by
  intro t
  induction t with
  | nil =>
    intro hv i L a len hIL ha hb
    have hi : i = 0 := by simp at hIL; omega
    have hL : L = 0 := by simp at hIL; omega
    subst hi hL
    exact ⟨[], [], by simp [encodeAll, decodeU], fun _ => rfl⟩
  | cons c t2 ih =>
    intro hv i L a len hIL hstart hend
    have hc := hv c (by simp)
    have hv2 : ∀ x ∈ t2, ValidScalar x := fun x hx => hv x (by simp [hx])
    have hmpos := encodeChar_length_pos c
    by_cases hL0 : L = 0
    · subst hL0
      refine ⟨[], decodeU (((encodeAll (c :: t2)).drop a).take len), ?_,
        fun _ => rfl⟩
      simp
    cases i with
    | zero =>
      have ha0 : a = 0 := by
        have := hstart
        rw [bytePos_zero] at this
        omega
      subst ha0
      obtain ⟨L2, rfl⟩ : ∃ L2, L = L2 + 1 := ⟨L - 1, by omega⟩
      simp only [Nat.zero_add] at hIL hend
      have hbp : bytePos (c :: t2) (L2 + 1)
          = (encodeChar c).length + bytePos t2 L2 := bytePos_cons c t2 L2
      rw [hbp] at hend
      have hlen : (encodeChar c).length ≤ len := by omega
      rw [encSlice_head_full c t2 len hlen, decode_encodeChar c hc]
      obtain ⟨x, y, heq, hpre⟩ := ih hv2 0 L2 0 (len - (encodeChar c).length)
        (by simp at hIL; omega) (by rw [bytePos_zero])
        (by simp only [Nat.zero_add]; omega)
      have hx : x = [] := hpre (by rw [bytePos_zero])
      subst hx
      simp only [List.drop_zero] at heq
      rw [heq]
      refine ⟨[], y, ?_, fun _ => rfl⟩
      simp [List.take_succ_cons]
    | succ i2 =>
      have hbpi : bytePos (c :: t2) (i2 + 1)
          = (encodeChar c).length + bytePos t2 i2 := bytePos_cons c t2 i2
      have hbpiL : bytePos (c :: t2) (i2 + 1 + L)
          = (encodeChar c).length + bytePos t2 (i2 + L) := by
        rw [show i2 + 1 + L = (i2 + L) + 1 from by omega, bytePos_cons]
      by_cases hma : (encodeChar c).length ≤ a
      · rw [encSlice_into_tail c t2 a hma]
        obtain ⟨x, y, heq, hpre⟩ := ih hv2 i2 L (a - (encodeChar c).length) len
          (by simp at hIL; omega)
          (by rw [hbpi] at hstart; omega)
          (by rw [hbpiL] at hend; omega)
        refine ⟨x, y, ?_, ?_⟩
        · rw [heq, List.drop_succ_cons]
        · intro hax
          apply hpre
          rw [hbpi] at hax
          omega
      · push_neg at hma
        have hstrict : bytePos (c :: t2) (i2 + 1) < bytePos (c :: t2) (i2 + 2) := by
          apply bytePos_strict
          simp only [List.length_cons]
          simp at hIL
          omega
        have hmlen : (encodeChar c).length - a < len := by
          have hmono : bytePos (c :: t2) (i2 + 2) ≤ bytePos (c :: t2) (i2 + 1 + L) :=
            bytePos_mono _ _ _ (by omega)
          have hm1 : (encodeChar c).length ≤ bytePos (c :: t2) (i2 + 1) := by
            rw [hbpi]; omega
          omega
        by_cases ha0 : a = 0
        · subst ha0
          rw [encSlice_head_full c t2 len (by omega), decode_encodeChar c hc]
          obtain ⟨x, y, heq, hpre⟩ := ih hv2 i2 L 0
            (len - (encodeChar c).length)
            (by simp at hIL; omega)
            (by omega)
            (by rw [hbpiL] at hend; omega)
          simp only [List.drop_zero] at heq
          rw [heq]
          refine ⟨c :: x, y, ?_, ?_⟩
          · rw [List.drop_succ_cons]
            simp
          · intro hax
            exfalso
            rw [hbpi] at hax
            omega
        · rw [encSlice_mid c t2 a len (by omega) (by omega) hmlen,
            decodeU_midchar c hc a (by omega)]
          obtain ⟨x, y, heq, hpre⟩ := ih hv2 i2 L 0
            (len - ((encodeChar c).length - a))
            (by simp at hIL; omega)
            (by omega)
            (by rw [hbpiL] at hend; omega)
          simp only [List.drop_zero] at heq
          rw [heq]
          refine ⟨x, y, ?_, ?_⟩
          · rw [List.drop_succ_cons]
          · intro hax
            exfalso
            rw [hbpi] at hax
            omega

theorem encodeChar_length_lowerChar (c : Nat) :
    (encodeChar (lowerChar c)).length = (encodeChar c).length := by
  unfold lowerChar
  split_ifs with h
  · unfold encodeChar
    rw [if_pos (by omega : c + 32 < 128), if_pos (by omega : c < 128)]
    rfl
  · rfl

theorem byteLen_cons (c : Nat) (u : List Nat) :
    byteLen (c :: u) = (encodeChar c).length + byteLen u := by
  unfold byteLen
  show (encodeChar c ++ encodeAll u).length = _
  rw [List.length_append]

theorem byteLen_eq_of_lower_eq (u : List Nat) :
    ∀ v : List Nat, lowerText u = lowerText v → byteLen u = byteLen v := by
  induction u with
  | nil =>
    intro v h
    have hv : v = [] := by
      unfold lowerText at h
      cases v with
      | nil => rfl
      | cons c v2 => simp at h
    rw [hv]
  | cons c u2 ih =>
    intro v h
    cases v with
    | nil => simp [lowerText] at h
    | cons k v2 =>
      unfold lowerText at h
      simp only [List.map_cons, List.cons.injEq] at h
      rw [byteLen_cons, byteLen_cons, ih v2 h.2]
      have h1 := encodeChar_length_lowerChar c
      have h2 := encodeChar_length_lowerChar k
      rw [← h1, h.1, h2]

theorem byteLen_pos (kw : List Nat) (h : kw ≠ []) : 0 < byteLen kw := by
  cases kw with
  | nil => exact absurd rfl h
  | cons c kw2 =>
    rw [byteLen_cons]
    have := encodeChar_length_pos c
    omega

theorem OccursL.mapF {α β : Type} (f : α → β) {pat l : List α}
    (h : OccursL pat l) : OccursL (pat.map f) (l.map f) := by
  obtain ⟨x, y, rfl⟩ := h
  exact ⟨x.map f, y.map f, by simp⟩

theorem OccursL_of_take {α : Type} (pat l : List α) (n : Nat)
    (h : OccursL pat (l.take n)) : OccursL pat l := by
  obtain ⟨x, y, hxy⟩ := h
  refine ⟨x, y ++ l.drop n, ?_⟩
  conv_lhs => rw [← List.take_append_drop n l]
  rw [hxy]
  simp

theorem OccursL_of_drop {α : Type} (pat l : List α) (n : Nat)
    (h : OccursL pat (l.drop n)) : OccursL pat l := by
  obtain ⟨x, y, hxy⟩ := h
  refine ⟨l.take n ++ x, y, ?_⟩
  conv_lhs => rw [← List.take_append_drop n l]
  rw [hxy]
  simp

theorem OccursL_iff_index {α : Type} (pat l : List α) :
    OccursL pat l ↔
      ∃ i, i + pat.length ≤ l.length ∧ (l.drop i).take pat.length = pat := by
  constructor
  · rintro ⟨x, y, rfl⟩
    refine ⟨x.length, by simp only [List.length_append]; omega, ?_⟩
    rw [List.append_assoc, List.drop_left, List.take_left]
  · rintro ⟨i, hle, heq⟩
    have hsplit : l = l.take i
        ++ ((l.drop i).take pat.length ++ (l.drop i).drop pat.length) := by
      rw [List.take_append_drop, List.take_append_drop]
    rw [heq, ← List.append_assoc] at hsplit
    exact ⟨l.take i, (l.drop i).drop pat.length, hsplit⟩

theorem firstOcc_isSome {α : Type} [DecidableEq α] (pat l : List α) :
    (firstOcc pat l).isSome = listOccurs pat l := by
  induction l with
  | nil =>
    unfold firstOcc listOccurs
    by_cases h : pat.isEmpty <;> simp [h]
  | cons b l2 ih =>
    unfold firstOcc listOccurs
    by_cases h : listStarts pat (b :: l2) <;> simp [h, ih]

theorem firstOcc_isSome_iff {α : Type} [DecidableEq α] (pat l : List α) :
    (firstOcc pat l).isSome = true ↔ OccursL pat l := by
  rw [firstOcc_isSome, listOccurs_iff]

theorem searchKeywords_isSome_iff (caseS : Bool) (st : List Nat)
    (kws : List (List Nat)) :
    (searchKeywords caseS st kws).isSome = true
      ↔ ∃ kw ∈ kws, OccursL (lowI caseS kw) st := by
  induction kws with
  | nil => simp [searchKeywords]
  | cons kw rest ih =>
    cases hf : firstOcc (if caseS then kw else lowerText kw) st with
    | some idx =>
      have hval : searchKeywords caseS st (kw :: rest)
          = some (if caseS then kw else lowerText kw, idx) := by
        unfold searchKeywords
        dsimp only
        rw [hf]
      rw [hval]
      simp only [Option.isSome_some, true_iff]
      refine ⟨kw, List.mem_cons_self kw rest, ?_⟩
      have hsome : (firstOcc (lowI caseS kw) st).isSome = true := by
        unfold lowI
        rw [hf]
        rfl
      exact (firstOcc_isSome_iff _ _).mp hsome
    | none =>
      have hval : searchKeywords caseS st (kw :: rest)
          = searchKeywords caseS st rest := by
        conv_lhs => unfold searchKeywords
        dsimp only
        rw [hf]
      rw [hval, ih]
      constructor
      · rintro ⟨kw2, h2, h3⟩
        exact ⟨kw2, List.mem_cons_of_mem kw h2, h3⟩
      · rintro ⟨kw2, h2, h3⟩
        rcases List.mem_cons.mp h2 with rfl | h2
        · exfalso
          have hsome : (firstOcc (lowI caseS kw2) st).isSome = true :=
            (firstOcc_isSome_iff _ _).mpr h3
          unfold lowI at hsome
          rw [hf] at hsome
          cases hsome
        · exact ⟨kw2, h2, h3⟩

theorem searchChunk_isSome_iff (kws : List (List Nat)) (caseS : Bool)
    (dd fn : String) (chunk : List Nat) (lineNo : Nat) :
    (searchChunk kws caseS dd fn chunk lineNo).isSome = true
      ↔ ∃ kw ∈ kws, OccursL (lowI caseS kw) (lowI caseS (decodeU chunk)) := by
  have hmain : (searchChunk kws caseS dd fn chunk lineNo).isSome
      = (searchKeywords caseS (lowI caseS (decodeU chunk)) kws).isSome := by
    unfold searchChunk lowI
    dsimp only
    cases hs : searchKeywords caseS
        (if caseS then decodeU chunk else lowerText (decodeU chunk)) kws with
    | none => rfl
    | some pr =>
      obtain ⟨sk, idx⟩ := pr
      rfl
  rw [hmain, searchKeywords_isSome_iff]

theorem lowI_slice (caseS : Bool) (t : List Nat) (i L : Nat) :
    ((lowI caseS t).drop i).take L = lowI caseS ((t.drop i).take L) := by
  unfold lowI lowerText
  split_ifs
  · rfl
  · rw [List.map_take, List.map_drop]

theorem lowI_append (caseS : Bool) (u v : List Nat) :
    lowI caseS (u ++ v) = lowI caseS u ++ lowI caseS v := by
  unfold lowI lowerText
  split_ifs
  · rfl
  · exact List.map_append lowerChar u v

theorem lower_of_lowI_eq (caseS : Bool) (u v : List Nat)
    (h : lowI caseS u = lowI caseS v) : lowerText u = lowerText v := by
  unfold lowI at h
  split_ifs at h
  · rw [h]
  · exact h

theorem window_match_implies_whole (kws : List (List Nat)) (caseS : Bool)
    (t : List Nat) (hv : ∀ c ∈ t, ValidScalar c) (a len : Nat)
    (h : WindowHasMatch kws caseS t a len) : WholeMatch kws caseS t := by
  obtain ⟨kw, hkw, hocc⟩ := h
  obtain ⟨i, k, heq, -⟩ := decode_slice t hv a len
  unfold sliceBytes at hocc
  rw [heq, ← lowI_slice] at hocc
  exact ⟨kw, hkw, OccursL_of_drop _ _ i (OccursL_of_take _ _ k hocc)⟩

theorem whole_match_to_window (kws : List (List Nat)) (caseS : Bool)
    (t : List Nat) (hv : ∀ c ∈ t, ValidScalar c) (kw : List Nat)
    (hkw : kw ∈ kws) (i : Nat)
    (hocc : ((lowI caseS t).drop i).take kw.length = lowI caseS kw)
    (hiL : i + kw.length ≤ t.length) (a len : Nat)
    (ha : a ≤ bytePos t i) (hb : bytePos t (i + kw.length) ≤ a + len) :
    WindowHasMatch kws caseS t a len := by
  obtain ⟨x, y, heq, -⟩ :=
    decode_slice_contains t hv i kw.length a len hiL ha hb
  refine ⟨kw, hkw, ?_⟩
  unfold sliceBytes
  rw [heq, lowI_append, lowI_append]
  have hmid : lowI caseS ((t.drop i).take kw.length) = lowI caseS kw := by
    rw [← lowI_slice]
    exact hocc
  rw [hmid]
  exact ⟨lowI caseS x, lowI caseS y, rfl⟩

theorem sliceBytes_adjacent (t : List Nat) (x y z : Nat) (h1 : x ≤ y)
    (h2 : y ≤ z) :
    sliceBytes t x (y - x) ++ sliceBytes t y (z - y) = sliceBytes t x (z - x) := by
  unfold sliceBytes
  have hd : (encodeAll t).drop y = ((encodeAll t).drop x).drop (y - x) := by
    rw [List.drop_drop]
    congr 1
    omega
  rw [hd, ← List.take_add]
  congr 1
  omega

theorem sliceBytes_drop (t : List Nat) (a len d : Nat) :
    (sliceBytes t a len).drop d = sliceBytes t (a + d) (len - d) := by
  unfold sliceBytes
  rw [List.drop_take, List.drop_drop]

theorem sliceBytes_take (t : List Nat) (a len c2 : Nat) (h : c2 ≤ len) :
    (sliceBytes t a len).take c2 = sliceBytes t a c2 := by
  unfold sliceBytes
  rw [List.take_take, Nat.min_eq_left h]

theorem sliceBytes_length (t : List Nat) (a len : Nat)
    (h : a + len ≤ byteLen t) : (sliceBytes t a len).length = len := by
  unfold sliceBytes
  rw [List.length_take, List.length_drop]
  unfold byteLen at h
  omega

theorem bytePos_add_span (t : List Nat) (i L : Nat) :
    bytePos t (i + L) = bytePos t i + byteLen ((t.drop i).take L) := by
  unfold bytePos byteLen
  rw [List.take_add, encodeAll_append, List.length_append]

theorem bytePos_span_of_occ (caseS : Bool) (t kw : List Nat) (i : Nat)
    (hocc : ((lowI caseS t).drop i).take kw.length = lowI caseS kw) :
    bytePos t (i + kw.length) = bytePos t i + byteLen kw := by
  rw [bytePos_add_span]
  congr 1
  exact byteLen_eq_of_lower_eq _ kw
    (lower_of_lowI_eq caseS _ _ (by rw [← lowI_slice]; exact hocc))

theorem chunkLoop_found_frozen (kws : List (List Nat)) (caseS : Bool)
    (dd fn : String) (cs ov : Nat) (ET : Bool) :
    ∀ fuel (st : StreamState) (r : MatchResultB), st.found = some r →
      (chunkLoop kws caseS dd fn cs ov ET fuel st).found = some r := by
  intro fuel
  induction fuel with
  | zero =>
    intro st r h
    exact h
  | succ fuel ih =>
    intro st r h
    unfold chunkLoop
    dsimp only
    split
    · split
      · rename_i r2 hs
        rw [if_neg (by rw [h]; intro hx; cases hx)]
        exact ih _ r h
      · rename_i hs
        exact ih _ r h
    · exact h

theorem ChunkInv_none (kws : List (List Nat)) (caseS : Bool) (t : List Nat)
    (cs ov consumed : Nat) (st : StreamState) (h : st.found = none) (K : Nat)
    (h1 : st.buffer = sliceBytes t (K * stride cs ov) (consumed - K * stride cs ov))
    (h2 : K * stride cs ov ≤ consumed)
    (h3 : consumed - K * stride cs ov < cs)
    (h4 : WindowClear kws caseS t cs ov K) :
    ChunkInv kws caseS t cs ov consumed st := by
  unfold ChunkInv
  rw [h]
  exact ⟨K, h1, h2, h3, h4⟩

theorem ChunkInv_some (kws : List (List Nat)) (caseS : Bool) (t : List Nat)
    (cs ov consumed : Nat) (st : StreamState) (r : MatchResultB)
    (h : st.found = some r) (hw : WholeMatch kws caseS t) :
    ChunkInv kws caseS t cs ov consumed st := by
  unfold ChunkInv
  rw [h]
  exact hw

theorem chunkLoop_inv (kws : List (List Nat)) (caseS : Bool) (dd fn : String)
    (cs ov : Nat) (ET : Bool) (t : List Nat)
    (hv : ∀ c ∈ t, ValidScalar c) (hcs : ov < cs) (consumed : Nat)
    (hcons : consumed ≤ byteLen t) :
    ∀ fuel (st : StreamState) (K : Nat), st.found = none →
      st.buffer = sliceBytes t (K * stride cs ov) (consumed - K * stride cs ov) →
      K * stride cs ov ≤ consumed →
      WindowClear kws caseS t cs ov K →
      st.buffer.length ≤ fuel →
      ChunkInv kws caseS t cs ov consumed
        (chunkLoop kws caseS dd fn cs ov ET fuel st) := by
  intro fuel
  induction fuel with
  | zero =>
    intro st K hfound hbuf hKle hclear hfuel
    have hlenbuf : st.buffer.length = consumed - K * stride cs ov := by
      rw [hbuf]
      exact sliceBytes_length t _ _ (by omega)
    exact ChunkInv_none kws caseS t cs ov consumed st hfound K hbuf hKle
      (by omega) hclear
  | succ fuel ih =>
    intro st K hfound hbuf hKle hclear hfuel
    have hlenbuf : st.buffer.length = consumed - K * stride cs ov := by
      rw [hbuf]
      exact sliceBytes_length t _ _ (by omega)
    unfold chunkLoop
    dsimp only
    by_cases hlen : cs ≤ st.buffer.length
    · rw [if_pos ⟨hlen, Or.inl hfound⟩]
      have hchunk : st.buffer.take cs = sliceBytes t (K * stride cs ov) cs := by
        rw [hbuf]
        exact sliceBytes_take t _ _ _ (by omega)
      split
      · rename_i r2 hs
        have hsome : (searchChunk kws caseS dd fn
            (sliceBytes t (K * stride cs ov) cs) st.line).isSome = true := by
          rw [← hchunk, hs]
          rfl
        have hwm : WindowHasMatch kws caseS t (K * stride cs ov) cs :=
          (searchChunk_isSome_iff kws caseS dd fn _ st.line).mp hsome
        have hw : WholeMatch kws caseS t :=
          window_match_implies_whole kws caseS t hv _ _ hwm
        rw [if_pos hfound]
        by_cases hET : ET = true
        · rw [if_pos hET]
          exact ChunkInv_some kws caseS t cs ov consumed _ r2 rfl hw
        · rw [if_neg hET]
          exact ChunkInv_some kws caseS t cs ov consumed _ r2
            (chunkLoop_found_frozen kws caseS dd fn cs ov ET fuel _ r2 rfl) hw
      · rename_i hs
        have hnw : ¬ WindowHasMatch kws caseS t (K * stride cs ov) cs := by
          intro hw2
          have hsome : (searchChunk kws caseS dd fn
              (sliceBytes t (K * stride cs ov) cs) st.line).isSome = true :=
            (searchChunk_isSome_iff kws caseS dd fn _ st.line).mpr hw2
          rw [← hchunk, hs] at hsome
          cases hsome
        refine ih _ (K + 1) hfound ?_ (by
            have : stride cs ov ≤ cs := by unfold stride; omega
            rw [Nat.succ_mul]
            omega) ?_ ?_
        · show st.buffer.drop (cs - ov)
            = sliceBytes t ((K + 1) * stride cs ov)
                (consumed - (K + 1) * stride cs ov)
          rw [hbuf, sliceBytes_drop, Nat.succ_mul]
          rw [show (cs - ov) = stride cs ov from rfl, Nat.sub_sub]
        · intro k hk
          rcases Nat.lt_succ_iff_lt_or_eq.mp hk with hk2 | rfl
          · exact hclear k hk2
          · exact hnw
        · show (st.buffer.drop (cs - ov)).length ≤ fuel
          rw [List.length_drop]
          have hstride : 1 ≤ cs - ov := by omega
          omega
    · rw [if_neg (fun hcnd => hlen hcnd.1)]
      exact ChunkInv_none kws caseS t cs ov consumed st hfound K hbuf hKle
        (by omega) hclear

theorem feedChunk_inv (kws : List (List Nat)) (caseS : Bool) (dd fn : String)
    (cs ov : Nat) (ET : Bool) (t : List Nat)
    (hv : ∀ c ∈ t, ValidScalar c) (hcs : ov < cs) (consumed : Nat)
    (st : StreamState) (d : Nat) (data : List Nat) (hdlen : data.length = d)
    (hdata : data = sliceBytes t consumed d)
    (htot : consumed + d ≤ byteLen t)
    (hinv : ChunkInv kws caseS t cs ov consumed st) :
    ChunkInv kws caseS t cs ov (consumed + d)
      (feedChunk kws caseS dd fn cs ov ET st data) := by
  unfold feedChunk
  cases hfound : st.found with
  | some r =>
    have hw : WholeMatch kws caseS t := by
      unfold ChunkInv at hinv
      rw [hfound] at hinv
      exact hinv
    by_cases hET : ET = true
    · rw [if_pos ⟨(by intro hx; cases hx), hET⟩]
      exact ChunkInv_some kws caseS t cs ov _ st r hfound hw
    · rw [if_neg (fun hc => hET hc.2)]
      dsimp only
      exact ChunkInv_some kws caseS t cs ov _ _ r
        (chunkLoop_found_frozen kws caseS dd fn cs ov ET _ _ r rfl) hw
  | none =>
    rw [if_neg (fun hc => hc.1 rfl)]
    dsimp only
    have hinv2 := hinv
    unfold ChunkInv at hinv2
    rw [hfound] at hinv2
    obtain ⟨K, hbuf, hKle, hlt, hclear⟩ := hinv2
    have hbuf2 : st.buffer ++ data
        = sliceBytes t (K * stride cs ov)
            ((consumed + d) - K * stride cs ov) := by
      have hadj := sliceBytes_adjacent t (K * stride cs ov) consumed
        (consumed + d) hKle (Nat.le_add_right _ _)
      rw [Nat.add_sub_cancel_left] at hadj
      rw [hbuf, hdata]
      exact hadj
    exact chunkLoop_inv kws caseS dd fn cs ov ET t hv hcs (consumed + d)
      htot ((st.buffer ++ data).length + 1) _ K rfl hbuf2
      (by omega) hclear (Nat.le_succ _)

theorem foldl_feedChunk_inv (kws : List (List Nat)) (caseS : Bool)
    (dd fn : String) (cs ov : Nat) (ET : Bool) (t : List Nat)
    (hv : ∀ c ∈ t, ValidScalar c) (hcs : ov < cs) :
    ∀ (chunks : List (List Nat)) (consumed : Nat) (st : StreamState),
      ChunkInv kws caseS t cs ov consumed st →
      (encodeAll t).drop consumed = chunks.flatten →
      consumed ≤ byteLen t →
      ChunkInv kws caseS t cs ov (byteLen t)
        (chunks.foldl (feedChunk kws caseS dd fn cs ov ET) st) := by
  intro chunks
  induction chunks with
  | nil =>
    intro consumed st hinv hrest hle
    have hge : byteLen t ≤ consumed := by
      have h2 : ((encodeAll t).drop consumed).length = 0 := by
        rw [hrest]
        rfl
      rw [List.length_drop] at h2
      unfold byteLen
      omega
    have hceq : consumed = byteLen t := le_antisymm hle hge
    rw [List.foldl_nil, ← hceq]
    exact hinv
  | cons c rest ih =>
    intro consumed st hinv hrest hle
    have hrest2 : (encodeAll t).drop consumed = c ++ rest.flatten := by
      rw [hrest]
      rfl
    rw [List.foldl_cons]
    have hdata : c = sliceBytes t consumed c.length := by
      unfold sliceBytes
      rw [hrest2]
      exact (List.take_left c rest.flatten).symm
    have hlen2 : ((encodeAll t).drop consumed).length
        = c.length + rest.flatten.length := by
      rw [hrest2, List.length_append]
    have htot : consumed + c.length ≤ byteLen t := by
      rw [List.length_drop] at hlen2
      have h4 : consumed ≤ byteLen t := hle
      unfold byteLen at h4 ⊢
      omega
    have hinv2 := feedChunk_inv kws caseS dd fn cs ov ET t hv hcs consumed st
      c.length c rfl hdata htot hinv
    refine ih (consumed + c.length) _ hinv2 ?_ htot
    have hdd : (encodeAll t).drop (consumed + c.length)
        = ((encodeAll t).drop consumed).drop c.length := by
      rw [List.drop_drop]
    rw [hdd, hrest2, List.drop_left]

theorem lowI_length (caseS : Bool) (u : List Nat) :
    (lowI caseS u).length = u.length := by
  unfold lowI lowerText
  split_ifs
  · rfl
  · exact List.length_map u lowerChar

theorem isEmptyFalseOfLengthPos {α : Type} (l : List α) (h : 0 < l.length) :
    l.isEmpty = false := by
  cases l with
  | nil => exact absurd h (lt_irrefl 0)
  | cons a l2 => rfl

/-- C2 (amended): for the literal-keyword fallback engine (no regex, no
ahocorasick), a stream of bytes that is the valid UTF-8 encoding of a text,
split arbitrarily into chunks, and keywords that are non-empty with encoded
length at most the overlap size (with overlap smaller than the chunk size),
the chunked `search_in_stream` finds a match exactly when a single-pass
`_search_in_chunk` over the whole input finds one — in case-sensitive mode
for arbitrary Unicode scalars, and in case-insensitive mode only when the
text and the keywords are ASCII. Each restriction is forced by the source:
on bytes that are not valid UTF-8 the per-window `errors='ignore'` decoding
can hide a match the single pass sees; in case-insensitive mode Python's
full `str.lower()` is not length-preserving (U+0130 lowers to the two code
points U+0069 U+0307), so a non-ASCII keyword within the overlap can lower
past it and straddle every window even on valid input, while on ASCII text
and keywords `str.lower()` is exactly the A-Z shift this file's `lowerChar`
embeds; and for regex patterns no overlap bound on the pattern string
bounds the match span (`a.*b` fits any overlap yet matches arbitrarily long
spans), so the equivalence cannot extend to the regex branch at all. -/
theorem chunked_equals_single_pass (kws : List (List Nat)) (caseS : Bool)
    (dd fn : String) (cs ov : Nat) (ET : Bool) (t : List Nat)
    (chunks : List (List Nat))
    (hv : ∀ c ∈ t, ValidScalar c)
    (hkw : ∀ kw ∈ kws, kw ≠ [] ∧ byteLen kw ≤ ov)
    (hcs : ov < cs)
    (hchunks : chunks.flatten = encodeAll t)
    (hascii : caseS = false →
      (∀ c ∈ t, c < 128) ∧ ∀ kw ∈ kws, ∀ c ∈ kw, c < 128) :
    (search_in_stream kws caseS dd fn cs ov ET chunks).isSome
      = (searchChunk kws caseS dd fn (encodeAll t) 1).isSome := by
  have hRHS : (searchChunk kws caseS dd fn (encodeAll t) 1).isSome = true
      ↔ WholeMatch kws caseS t := by
    unfold WholeMatch
    rw [searchChunk_isSome_iff, decode_encodeAll t hv]
  have hinit : ChunkInv kws caseS t cs ov 0 ⟨[], 1, none⟩ :=
    ChunkInv_none kws caseS t cs ov 0 ⟨[], 1, none⟩ rfl 0
      (by simp [sliceBytes]) (by omega) (by omega)
      (fun k hk => absurd hk (Nat.not_lt_zero k))
  have hfold := foldl_feedChunk_inv kws caseS dd fn cs ov ET t hv hcs chunks 0
    ⟨[], 1, none⟩ hinit (by rw [List.drop_zero]; exact hchunks.symm)
    (Nat.zero_le _)
  unfold search_in_stream
  dsimp only
  split
  · rename_i r hfst
    have hw : WholeMatch kws caseS t := by
      unfold ChunkInv at hfold
      rw [hfst] at hfold
      exact hfold
    rw [hRHS.mpr hw]
    rfl
  · rename_i hfst
    unfold ChunkInv at hfold
    rw [hfst] at hfold
    obtain ⟨K, hbuf, hKle, hlt, hclear⟩ := hfold
    by_cases hw : WholeMatch kws caseS t
    · have hw0 := hw
      obtain ⟨kw, hkwm, hocc⟩ := hw
      obtain ⟨hkne, hkov⟩ := hkw kw hkwm
      rw [OccursL_iff_index] at hocc
      obtain ⟨i, hile, heq⟩ := hocc
      simp only [lowI_length] at hile heq
      have hiL : i + kw.length ≤ t.length := hile
      have hspan := bytePos_span_of_occ caseS t kw i heq
      have hB1 : 1 ≤ byteLen kw := byteLen_pos kw hkne
      have hple := bytePos_le_byteLen t (i + kw.length)
      have hspos : 0 < stride cs ov := by unfold stride; omega
      have hsov : stride cs ov + ov = cs := by unfold stride; omega
      have hdm := Nat.div_add_mod (bytePos t i) (stride cs ov)
      have hmod := Nat.mod_lt (bytePos t i) hspos
      have hc1 : (bytePos t i / stride cs ov) * stride cs ov ≤ bytePos t i :=
        Nat.div_mul_le_self _ _
      have hcomm : (bytePos t i / stride cs ov) * stride cs ov
          = stride cs ov * (bytePos t i / stride cs ov) := Nat.mul_comm _ _
      by_cases hkK : bytePos t i / stride cs ov < K
      · exact absurd
          (whole_match_to_window kws caseS t hv kw hkwm i heq hiL
            ((bytePos t i / stride cs ov) * stride cs ov) cs hc1 (by omega))
          (hclear _ hkK)
      · have hKk : K ≤ bytePos t i / stride cs ov := Nat.le_of_not_lt hkK
        have hKs : K * stride cs ov ≤ bytePos t i := by
          have h3 : K * stride cs ov
              ≤ (bytePos t i / stride cs ov) * stride cs ov :=
            Nat.mul_le_mul_right _ hKk
          omega
        have hwm : WindowHasMatch kws caseS t (K * stride cs ov)
            (byteLen t - K * stride cs ov) :=
          whole_match_to_window kws caseS t hv kw hkwm i heq hiL _ _ hKs
            (by omega)
        have hblen : (chunks.foldl (feedChunk kws caseS dd fn cs ov ET)
            ⟨[], 1, none⟩).buffer.length = byteLen t - K * stride cs ov := by
          rw [hbuf]
          exact sliceBytes_length t _ _ (by omega)
        have hbne : (chunks.foldl (feedChunk kws caseS dd fn cs ov ET)
            ⟨[], 1, none⟩).buffer.isEmpty = false := by
          apply isEmptyFalseOfLengthPos
          rw [hblen]
          omega
        rw [hbne, if_neg Bool.false_ne_true]
        have hL : (searchChunk kws caseS dd fn
            (chunks.foldl (feedChunk kws caseS dd fn cs ov ET)
              ⟨[], 1, none⟩).buffer
            (chunks.foldl (feedChunk kws caseS dd fn cs ov ET)
              ⟨[], 1, none⟩).line).isSome = true := by
          rw [hbuf]
          exact (searchChunk_isSome_iff kws caseS dd fn _ _).mpr hwm
        rw [hL, hRHS.mpr hw0]
    · have hR : (searchChunk kws caseS dd fn (encodeAll t) 1).isSome
          = false := by
        cases hb : (searchChunk kws caseS dd fn (encodeAll t) 1).isSome with
        | false => rfl
        | true => exact absurd (hRHS.mp hb) hw
      split_ifs with hbe
      · rw [hR]
        rfl
      · have hLf : (searchChunk kws caseS dd fn
            (chunks.foldl (feedChunk kws caseS dd fn cs ov ET)
              ⟨[], 1, none⟩).buffer
            (chunks.foldl (feedChunk kws caseS dd fn cs ov ET)
              ⟨[], 1, none⟩).line).isSome = false := by
          cases hb : (searchChunk kws caseS dd fn
              (chunks.foldl (feedChunk kws caseS dd fn cs ov ET)
                ⟨[], 1, none⟩).buffer
              (chunks.foldl (feedChunk kws caseS dd fn cs ov ET)
                ⟨[], 1, none⟩).line).isSome with
          | false => rfl
          | true =>
            have hb2 : (searchChunk kws caseS dd fn
                (sliceBytes t (K * stride cs ov)
                  (byteLen t - K * stride cs ov))
                (chunks.foldl (feedChunk kws caseS dd fn cs ov ET)
                  ⟨[], 1, none⟩).line).isSome = true := by
              rw [← hbuf]
              exact hb
            exact absurd (window_match_implies_whole kws caseS t hv _ _
              ((searchChunk_isSome_iff kws caseS dd fn _ _).mp hb2)) hw
        rw [hLf, hR]

/-- C2 counterexample: as stated for arbitrary byte sequences the claim is
false, already in case-sensitive mode where no case folding is involved.
With keyword "ab" (encoded length 2 = overlap size 2 < chunk size 3) and
input bytes `61 FF FF FF 62`, the chunked scan returns no match — every
window decodes its invalid `FF` bytes away separately, so no window ever
contains both letters — while the single-pass scan decodes the whole input
to "ab" and matches. -/
theorem chunk_boundary_counterexample :
    (search_in_stream [[97, 98]] true "d" "f" 3 2 false
        [[97, 255, 255, 255, 98]]).isSome = false
      ∧ (searchChunk [[97, 98]] true "d" "f" [97, 255, 255, 255, 98]
          1).isSome = true
      ∧ byteLen [97, 98] ≤ 2 ∧ 2 < 3 := by
  decide

/-- Witness for the amended C2 theorem at a concrete instance: ASCII text
"ab" searched case-insensitively, delivered as two one-byte stream chunks
with chunk size 3 and overlap 2. -/
theorem chunked_equals_single_pass_witness :
    (search_in_stream [[97, 98]] false "d" "f" 3 2 true [[97], [98]]).isSome
      = (searchChunk [[97, 98]] false "d" "f" (encodeAll [97, 98]) 1).isSome :=
  chunked_equals_single_pass [[97, 98]] false "d" "f" 3 2 true [97, 98]
    [[97], [98]] (by decide) (by decide) (by decide) (by decide) (by decide)

end XmlSearch
